import Mathlib

/-!
Shallow embedding of the Dots-and-Boxes engine in `src/Dots-and-Boxes/main.py`.

Conventions used throughout:

* `LINES`/`COLUMNS` (the class-level configuration `Game.LINES` / `Game.COLUMNS`)
  are passed as explicit parameters `L C : Nat`.
* The two player symbols are abstracted to their roles `Pmin` (`Game.MIN`) and
  `Pmax` (`Game.MAX`); the source only ever compares symbols against those two
  class attributes, so only the role matters.
* A box `board[i][j]` is the pair `(segment bits, owner)` exactly as in the
  source (`' '` owner becomes `none`).  Board access out of the in-contract
  range (which would raise in Python) is modelled with `List.getD` defaults and
  no-op `List.set`; every in-contract call site accesses in-range indices only.
* Functions that can raise in Python (or loop, see `obWhile`) return `Option`;
  `none` models an uncaught exception.
* The unbounded recursion of `min_max` / `alpha_beta` is driven by an explicit
  `fuel : Nat`; one unit of fuel is consumed per expansion level, matching the
  source where `depth` strictly decreases by 1 per level, so any
  `fuel > depth` computes the Python result.
-/

set_option maxHeartbeats 1000000

namespace DB

/-- Player roles: `Pmin` is the human (`Game.MIN`), `Pmax` the computer (`Game.MAX`). -/
inductive Player where
  | Pmin : Player
  | Pmax : Player
deriving DecidableEq, Repr

/-- The other player (used to state the turn-passing rule). -/
def otherPlayer : Player → Player
  | .Pmin => .Pmax
  | .Pmax => .Pmin

/-- The `Game` object of the source: `board` (matrix of `(bits, owner)` pairs,
bit 8 = up, 4 = right, 2 = down, 1 = left), the two scores, `filled_box`, and
`last_segment` (`(None, None, None)` becomes `none`). -/
structure Game where
  board : List (List (Nat × Option Player))
  scoreMin : Nat
  scoreMax : Nat
  filledBox : Bool
  lastSegment : Option (Nat × Nat × Player)
deriving DecidableEq, Repr

/-- Reading `game.board[i][j]`; out-of-range reads (a Python error) yield the
default `(0, none)`. -/
def getBox (g : Game) (i j : Nat) : Nat × Option Player :=
  (g.board.getD i []).getD j (0, none)

/-- The segment bits of box `(i, j)`. -/
def boxBits (g : Game) (i j : Nat) : Nat := (getBox g i j).1

/-- The owner of box `(i, j)` (`none` is the `' '` of the source). -/
def boxOwner (g : Game) (i j : Nat) : Option Player := (getBox g i j).2

/-- Writing `game.board[i][j] = b`; out-of-range writes are no-ops (in-contract
call sites are always in range). -/
def setBox (g : Game) (i j : Nat) (b : Nat × Option Player) : Game :=
  { g with board := g.board.set i ((g.board.getD i []).set j b) }

/-- A direction tuple `d` of the source: `(d[0], d[1], d[2], d[3])` =
(bit to set, line offset, column offset, mirrored bit of the neighbour box). -/
structure Dir where
  bit : Nat
  di : Int
  dj : Int
  mbit : Nat
deriving DecidableEq, Repr

/-- The tuple `(8, -1, 0, 2)`: the up edge, mirrored as the neighbour's down edge. -/
def dUp : Dir := ⟨8, -1, 0, 2⟩

/-- The tuple `(1, 0, -1, 4)`: the left edge, mirrored as the neighbour's right edge. -/
def dLeft : Dir := ⟨1, 0, -1, 4⟩

/-- The tuple `(4, 0, 1, 1)`: the right edge, mirrored as the neighbour's left edge. -/
def dRight : Dir := ⟨4, 0, 1, 1⟩

/-- The tuple `(2, 1, 0, 8)`: the down edge, mirrored as the neighbour's up edge. -/
def dDown : Dir := ⟨2, 1, 0, 8⟩

/-- The direction list `[(8,-1,0,2), (1,0,-1,4), (4,0,1,1), (2,1,0,8)]` iterated
by `open_boxes_2`. -/
def dirList : List Dir := [dUp, dLeft, dRight, dDown]

/-- `in_scope(i, j)`: `0 <= i < Game.LINES and 0 <= j < Game.COLUMNS`. -/
def inScope (L C : Nat) (i j : Int) : Bool :=
  0 ≤ i && i < (L : Int) && 0 ≤ j && j < (C : Int)

/-- `complete_box(game, d, i, j, player)`: adds `d` to the bits of box `(i,j)`,
records `last_segment`, and if the box shows all four edges (`& 15 == 15`)
sets `filled_box`, assigns the owner and increments the player's score. -/
def completeBox (g : Game) (d : Nat) (i j : Nat) (p : Player) : Game :=
  let b0 := getBox g i j
  let g1 := setBox g i j (b0.1 + d, b0.2)
  let g2 := { g1 with lastSegment := some (i, j, p) }
  let nb := boxBits g2 i j
  if nb &&& 15 = 15 then
    let g3 := setBox { g2 with filledBox := true } i j (nb, some p)
    match p with
    | .Pmin => { g3 with scoreMin := g3.scoreMin + 1 }
    | .Pmax => { g3 with scoreMax := g3.scoreMax + 1 }
  else g2

/-- `add_segment(game, d, i, j, player)`: if the `d[0]` bit of box `(i,j)` is
free, draws the segment there via `complete_box` (and on the in-scope
neighbour box with the mirrored bit `d[3]`); otherwise falls through,
returning Python's implicit `None`. -/
def addSegment (L C : Nat) (g : Game) (d : Dir) (i j : Nat) (p : Player) : Option Game :=
  if boxBits g i j &&& d.bit ≠ 0 then none
  else
    let g1 := completeBox g d.bit i j p
    let ni : Int := (i : Int) + d.di
    let nj : Int := (j : Int) + d.dj
    if inScope L C ni nj then some (completeBox g1 d.mbit ni.toNat nj.toNat p)
    else some g1

/-- `Game.moves(player)`: for every box appends the up and left attempts, per
line additionally the right attempt at the last column, and finally the down
attempts along the last line.  Entries are `None` for already drawn segments,
exactly as the Python list. -/
def gameMoves (L C : Nat) (g : Game) (p : Player) : List (Option Game) :=
  ((List.range L).flatMap fun i =>
    ((List.range C).flatMap fun j =>
      [addSegment L C g dUp i j p, addSegment L C g dLeft i j p])
    ++ [addSegment L C g dRight i (C - 1) p])
  ++ ((List.range C).map fun j => addSegment L C g dDown (L - 1) j p)

/-- The freshly constructed `Game()` (empty `LINES x COLUMNS` board, zero
scores, `filled_box = False`, `last_segment = (None, None, None)`). -/
def emptyGame (L C : Nat) : Game :=
  ⟨List.replicate L (List.replicate C (0, none)), 0, 0, false, none⟩

/-- The result of `Game.final()`: `False`, `'tie'`, or the winner's symbol. -/
inductive Outcome where
  | notFinal : Outcome
  | tie : Outcome
  | winMin : Outcome
  | winMax : Outcome
deriving DecidableEq, Repr

/-- `Game.final()`. -/
def gameFinal (L C : Nat) (g : Game) : Outcome :=
  if g.scoreMin + g.scoreMax ≠ L * C then .notFinal
  else if g.scoreMin = g.scoreMax then .tie
  else if g.scoreMin > g.scoreMax then .winMin
  else .winMax

/-- `Game.open_boxes_1(player)`: `LINES*COLUMNS` minus the opponent's score. -/
def openBoxes1 (L C : Nat) (g : Game) (p : Player) : Int :=
  match p with
  | .Pmin => (L * C : Int) - g.scoreMax
  | .Pmax => (L * C : Int) - g.scoreMin

/-- One `add_segment(game, d, game.last_segment[0], game.last_segment[1], player)`
attempt of the `for` loop in `open_boxes_2`, threading the (mutated) game and
the success count; reading `last_segment[0]` when `last_segment` is
`(None, None, None)` raises in Python, modelled by `none`. -/
def obTry (L C : Nat) (p : Player) (acc : Game × Nat) (d : Dir) : Option (Game × Nat) :=
  match acc.1.lastSegment with
  | none => none
  | some (i, j, _) =>
    match addSegment L C acc.1 d i j p with
    | some g' => some (g', acc.2 + 1)
    | none => some (acc.1, acc.2)

/-- The `while count == 1` loop of `open_boxes_2`, with explicit fuel.  Each
continued iteration had exactly one successful `add_segment`, which draws at
least one previously free segment, so the loop runs at most
`totalSegments + 1` times; `obFuel` below therefore always suffices and fuel
exhaustion (`none`) is unreachable in contract. -/
def obWhile (L C : Nat) (p : Player) : Nat → Game → Nat → Nat → Option Nat
  | 0, _, score, count => if count ≠ 1 then some score else none
  | fuel + 1, g, score, count =>
    if count ≠ 1 then some score
    else
      match dirList.foldlM (obTry L C p) (g, 0) with
      | none => none
      | some gc => obWhile L C p fuel gc.1 (score + 1) gc.2

/-- Fuel for `obWhile`: the total number of segments plus two. -/
def obFuel (L C : Nat) : Nat := 2 * L * C + L + C + 2

/-- `Game.open_boxes_2(player)`: the player's current score plus the chain of
boxes still closable before the turn changes hands. -/
def openBoxes2 (L C : Nat) (g : Game) (p : Player) : Option Nat :=
  let score := match p with | .Pmin => g.scoreMin | .Pmax => g.scoreMax
  let lastOwner := g.lastSegment.map fun t => t.2.2
  let count : Nat :=
    if (lastOwner = some p ∧ g.filledBox = true) ∨ (lastOwner ≠ some p ∧ g.filledBox = false)
    then 1 else 0
  obWhile L C p (obFuel L C) g score count

/-- `Game.open_boxes(player)`: dispatch on `Game.VAR` (the source fixes
`VAR = 2`; the parameter `var` mirrors the class attribute). -/
def openBoxes (L C var : Nat) (g : Game) (p : Player) : Option Int :=
  if var = 1 then some (openBoxes1 L C g p)
  else (openBoxes2 L C g p).map fun n => (n : Int)

/-- `Game.estimate_score()`: sentinels `±100000` / `0` at final states, else
`open_boxes(MAX) - open_boxes(MIN)`. -/
def estimateScore (L C var : Nat) (g : Game) : Option Int :=
  match gameFinal L C g with
  | .winMax => some 100000
  | .winMin => some (-100000)
  | .tie => some 0
  | .notFinal =>
    match openBoxes L C var g .Pmax, openBoxes L C var g .Pmin with
    | some a, some b => some (a - b)
    | _, _ => none

/-- The searchable part of the `State` class: `game`, `current_player`,
`depth` (the fields `score`, `possible_moves`, `next_state` are outputs of the
search, modelled by `SResult`). -/
structure SState where
  game : Game
  currentPlayer : Player
  depth : Nat
deriving DecidableEq, Repr

/-- `State.next_player()`. -/
def nextPlayerOf (s : SState) : Player :=
  if (s.currentPlayer = .Pmin ∧ s.game.filledBox = false) ∨
     (s.currentPlayer = .Pmax ∧ s.game.filledBox = true)
  then .Pmax else .Pmin

/-- `State.moves()`: keeps the non-`None` entries of `Game.moves`, wrapping each
game with `next_player() if not game.filled_box else current_player` and
depth `depth - 1`. -/
def stateMoves (L C : Nat) (s : SState) : List SState :=
  (gameMoves L C s.game s.currentPlayer).filterMap fun og =>
    og.map fun g =>
      ⟨g, if g.filledBox = false then nextPlayerOf s else s.currentPlayer, s.depth - 1⟩

/-- The observable outcome of `min_max` / `alpha_beta` on a state: the `score`
written into the state (`none` is Python's `None`, possible in the
`alpha > beta` early return) and the identity of the chosen `next_state` child
(whose own `game` / `current_player` / `depth` are not modified by the search). -/
structure SResult where
  score : Option Int
  next : Option SState
deriving DecidableEq, Repr

/-- The test `state.depth == 0 or state.game.final()` shared by both searches. -/
def isLeaf (L C : Nat) (s : SState) : Bool :=
  s.depth = 0 || gameFinal L C s.game ≠ .notFinal

/-- The leaf outcome: `state.score = state.game.estimate_score()` and no
`next_state`; `none` if the estimator raises. -/
def leafResult (L C var : Nat) (s : SState) : Option SResult :=
  (estimateScore L C var s.game).map fun v => ⟨some v, none⟩

/-- One step of Python's `max(moves_score, key=lambda x: x.score)` (for `MAX`)
or `min(...)` (for `MIN`): both keep the earlier element on ties, so the first
extremal child wins. -/
def chooseStep (p : Player) (a b : SState × Int) : SState × Int :=
  match p with
  | .Pmax => if b.2 > a.2 then b else a
  | .Pmin => if b.2 < a.2 then b else a

/-- Scoring of `moves_score = [min_max(x) for x in state.possible_moves]`:
runs the recursive search `eval` over the children in order, pairing each
child with the integer score it received; a raising child propagates the
exception (`none`), and a `None` score (which `min_max` never produces)
aborts as the following comparison of `max`/`min` would. -/
def scoreList (eval : SState → Option SResult) : List SState → Option (List (SState × Int))
  | [] => some []
  | c :: cs =>
    match eval c with
    | none => none
    | some r =>
      match r.score with
      | none => none
      | some v => (scoreList eval cs).map fun l => (c, v) :: l

/-- `min_max(state)`, fuelled.  Internal nodes score every child, then pick
the first extremal child; `max`/`min` on an empty list raises (`none`). -/
def minMaxF (L C var : Nat) : Nat → SState → Option SResult
  | 0, s => if isLeaf L C s then leafResult L C var s else none
  | fuel + 1, s =>
    if isLeaf L C s then leafResult L C var s
    else
      match scoreList (fun c => minMaxF L C var fuel c) (stateMoves L C s) with
      | none => none
      | some [] => none
      | some (x :: xs) =>
        let best := xs.foldl (chooseStep s.currentPlayer) x
        some ⟨some best.2, some best.1⟩

/-- The test `current_score < new_state.score` of `alpha_beta_state` on a `MAX`
node, where `current_score` starts at `float('-inf')` (modelled as `none`). -/
def abImprove : Option (SState × Int) → Int → Bool
  | none, _ => true
  | some a, v => a.2 < v

/-- The test `current_score > new_state.score` of `alpha_beta_state` on a `MIN`
node, where `current_score` starts at `float('inf')` (modelled as `none`). -/
def abWorsen : Option (SState × Int) → Int → Bool
  | none, _ => true
  | some a, v => a.2 > v

/-- The `for move in state.possible_moves` loop of `alpha_beta_state(alpha,
beta, state)`: scores the child through `eval` (the recursive `alpha_beta`),
then on a `MAX` node performs `alpha = min(alpha, new_state.score)` and the
best-child update, on a `MIN` node `beta = max(beta, new_state.score)` and the
update, and breaks when `alpha >= beta`.  A child returning a `None` score
makes the following `min`/`max` comparison raise (`none`). -/
def abLoop (p : Player) (eval : Int → Int → SState → Option SResult) :
    List SState → Int → Int → Option (SState × Int) → Option (Option (SState × Int))
  | [], _, _, best => some best
  | m :: ms, alpha, beta, best =>
    match eval alpha beta m with
    | none => none
    | some r =>
      match r.score with
      | none => none
      | some v =>
        match p with
        | .Pmax =>
          let alpha' := min alpha v
          let best' := if abImprove best v then some (m, v) else best
          if alpha' ≥ beta then some best'
          else abLoop p eval ms alpha' beta best'
        | .Pmin =>
          let beta' := max beta v
          let best' := if abWorsen best v then some (m, v) else best
          if alpha ≥ beta' then some best'
          else abLoop p eval ms alpha beta' best'

/-- `alpha_beta(alpha, beta, state)`, fuelled: leaves behave as in `min_max`;
then `if alpha > beta: return state` returns the state untouched (score still
`None`, no `next_state`); otherwise the node runs `alpha_beta_state` over its
children and copies the chosen child's score (`state.score =
state.next_state.score` raises (`none`) when no child was recorded). -/
def alphaBetaF (L C var : Nat) : Nat → Int → Int → SState → Option SResult
  | 0, alpha, beta, s =>
    if isLeaf L C s then leafResult L C var s
    else if alpha > beta then some ⟨none, none⟩
    else none
  | fuel + 1, alpha, beta, s =>
    if isLeaf L C s then leafResult L C var s
    else if alpha > beta then some ⟨none, none⟩
    else
      match abLoop s.currentPlayer (fun a b c => alphaBetaF L C var fuel a b c)
          (stateMoves L C s) alpha beta none with
      | none => none
      | some none => none
      | some (some cv) => some ⟨some cv.2, some cv.1⟩

/-- The classification returned by `find_relative_position`. -/
inductive RelPos where
  | horizontal : RelPos
  | vertical : RelPos
  | nonValid : RelPos
deriving DecidableEq, Repr

/-- `find_relative_position(line, column, board)` (called with the in-range
dot-lattice coordinates screened by `check_position`). -/
def findRelativePosition (L C : Nat) (line col : Nat) (g : Game) : RelPos :=
  if line = 2 * L then
    if boxBits g (line / 2 - 1) (col / 2) &&& 2 = 0 then .horizontal else .nonValid
  else if line % 2 = 0 then
    if boxBits g (line / 2) (col / 2) &&& 8 = 0 then .horizontal else .nonValid
  else if col = 2 * C then
    if boxBits g (line / 2) (col / 2 - 1) &&& 4 = 0 then .vertical else .nonValid
  else
    if boxBits g (line / 2) (col / 2) &&& 1 = 0 then .vertical else .nonValid

/-- `check_position(line, column, state)`: validates the range and parity of a
human coordinate pair, classifies it, and on success draws the segment on the
one or two in-scope adjacent boxes with `complete_box(..., Game.MIN)`,
returning Python's `True`/`False` along with the (possibly updated) game. -/
def checkPosition (L C : Nat) (line col : Int) (g : Game) : Bool × Game :=
  if 0 ≤ line ∧ line < 2 * (L : Int) + 1 ∧ 0 ≤ col ∧ col < 2 * (C : Int) + 1 ∧
     (line + col) % 2 = 1 then
    let ln := line.toNat
    let cn := col.toNat
    match findRelativePosition L C ln cn g with
    | .horizontal =>
      let r := ln / 2
      let c := cn / 2
      let g1 := if inScope L C (r : Int) (c : Int) then completeBox g 8 r c .Pmin else g
      let g2 := if inScope L C ((r : Int) - 1) (c : Int) then completeBox g1 2 (r - 1) c .Pmin else g1
      (true, g2)
    | .vertical =>
      let r := ln / 2
      let c := cn / 2
      let g1 := if inScope L C (r : Int) (c : Int) then completeBox g 1 r c .Pmin else g
      let g2 := if inScope L C (r : Int) ((c : Int) - 1) then completeBox g1 4 r (c - 1) .Pmin else g1
      (true, g2)
    | .nonValid => (false, g)
  else (false, g)

/-! ### Derived notions used by the verification -/

/-- Well-formed board of the configured size: `LINES` rows of `COLUMNS` boxes. -/
def Wf (L C : Nat) (g : Game) : Prop :=
  g.board.length = L ∧ ∀ i, i < L → (g.board.getD i []).length = C

/-- The combined score `score_min + score_max`. -/
def scoreSum (g : Game) : Nat := g.scoreMin + g.scoreMax

/-- Number of owned boxes in one row. -/
def rowOwned (row : List (Nat × Option Player)) : Nat :=
  row.countP fun b => b.2.isSome

/-- Number of owned boxes on the whole board. -/
def ownedCount (g : Game) : Nat := (g.board.map rowOwned).sum

/-- The `(direction, box line, box column)` triples in the exact order
`Game.moves` iterates them; every segment of the board appears exactly once. -/
def canonicalPositions (L C : Nat) : List (Dir × Nat × Nat) :=
  ((List.range L).flatMap fun i =>
    ((List.range C).flatMap fun j => [(dUp, i, j), (dLeft, i, j)])
    ++ [(dRight, i, C - 1)])
  ++ ((List.range C).map fun j => (dDown, L - 1, j))

/-- Total number of segments of an `L x C`-box board. -/
def totalSegments (L C : Nat) : Nat := 2 * L * C + L + C

/-- Identity of the segment addressed by an enumerated `(direction, box)`
triple: `(true, r, c)` is the horizontal segment above box line `r`,
`(false, r, c)` the vertical segment left of box column `c`. -/
def segId (t : Dir × Nat × Nat) : Bool × Nat × Nat :=
  if t.1.bit = 8 then (true, t.2.1, t.2.2)
  else if t.1.bit = 2 then (true, t.2.1 + 1, t.2.2)
  else if t.1.bit = 1 then (false, t.2.1, t.2.2)
  else (false, t.2.1, t.2.2 + 1)

/-- Number of canonical positions whose segment is still free. -/
def undrawnCount (L C : Nat) (g : Game) : Nat :=
  (canonicalPositions L C).countP fun t => boxBits g t.2.1 t.2.2 &&& t.1.bit == 0

/-- Number of canonical positions whose segment is already drawn. -/
def drawnCount (L C : Nat) (g : Game) : Nat :=
  (canonicalPositions L C).countP fun t => boxBits g t.2.1 t.2.2 &&& t.1.bit != 0

/-- The one or two in-range `(box line, box column, bit)` views of the segment
addressed by a dot-lattice coordinate pair, with the same in-scope guards
`check_position` uses when drawing it (`r = line / 2`, `c = col / 2`). -/
def segTargets (L C : Nat) (line col : Nat) : List (Nat × Nat × Nat) :=
  let r := line / 2
  let c := col / 2
  if line % 2 = 0 then
    (if r < L ∧ c < C then [(r, c, 8)] else []) ++
    (if 1 ≤ r ∧ r - 1 < L ∧ c < C then [(r - 1, c, 2)] else [])
  else
    (if r < L ∧ c < C then [(r, c, 1)] else []) ++
    (if 1 ≤ c ∧ r < L ∧ c - 1 < C then [(r, c - 1, 4)] else [])

/-- One best-child update of the alpha-beta loop on a `MAX` node, as a fold
step (`none` is the initial `float('-inf')` score). -/
def bestStepMax (acc : Option (SState × Int)) (y : SState × Int) : Option (SState × Int) :=
  if abImprove acc y.2 then some y else acc

/-- One best-child update of the alpha-beta loop on a `MIN` node, as a fold
step (`none` is the initial `float('inf')` score). -/
def bestStepMin (acc : Option (SState × Int)) (y : SState × Int) : Option (SState × Int) :=
  if abWorsen acc y.2 then some y else acc

/-- The inductive invariant maintained by segment placements: well-formed
board, in-range segment encodings, the spec's owner/edges invariant, agreement
of the two encodings of every shared (internal) segment, and scores matching
the owned boxes. -/
structure Inv (L C : Nat) (g : Game) : Prop where
  wf : Wf L C g
  bits_le : ∀ i j, boxBits g i j < 16
  owner_iff : ∀ i j, (boxOwner g i j).isSome ↔ boxBits g i j = 15
  syncV : ∀ i j, i + 1 < L → j < C →
    (boxBits g i j &&& 2 = 0 ↔ boxBits g (i + 1) j &&& 8 = 0)
  syncH : ∀ i j, i < L → j + 1 < C →
    (boxBits g i j &&& 4 = 0 ↔ boxBits g i (j + 1) &&& 1 = 0)
  score_eq : scoreSum g = ownedCount g

/-- Intermediate positions of a concrete 1 x 2 play: the top edge of the left
box has been drawn. -/
def exG1 : Game := ⟨[[(8, none), (0, none)]], 0, 0, false, some (0, 0, .Pmax)⟩

/-- Next the left edge of the left box. -/
def exG2 : Game := ⟨[[(9, none), (0, none)]], 0, 0, false, some (0, 0, .Pmax)⟩

/-- Next the bottom edge of the left box. -/
def exG3 : Game := ⟨[[(11, none), (0, none)]], 0, 0, false, some (0, 0, .Pmax)⟩

/-- The 1 x 2 position right after MIN completed the left box by drawing its
right edge (the shared segment): `filled_box` is set, the right box has only
its left edge, and MIN moves again. -/
def exG : Game := ⟨[[(15, some .Pmin), (1, none)]], 1, 0, true, some (0, 1, .Pmin)⟩

/-- The child of `exG` in which MIN draws the top edge of the right box,
completing nothing. -/
def exGchild : SState :=
  ⟨⟨[[(15, some .Pmin), (9, none)]], 1, 0, true, some (0, 1, .Pmin)⟩, .Pmin, 1⟩

/-- A depth-0 leaf whose crude-policy estimate is `5` (scores are set
directly; the estimate for policy 1 is `score_max - score_min`). -/
def exA : SState := ⟨⟨[[(0, none)]], 0, 5, false, none⟩, .Pmin, 0⟩

/-- A depth-0 leaf whose crude-policy estimate is `7`. -/
def exB : SState := ⟨⟨[[(0, none)]], 0, 7, false, none⟩, .Pmin, 0⟩

/-- A finished 1 x 1 game won by MAX. -/
def exWin : Game := ⟨[[(15, some .Pmax)]], 0, 1, true, some (0, 0, .Pmax)⟩

/-- A 1 x 2 board where both boxes miss only the shared middle segment:
box `(0,0)` has bits `11 = 15 - 4` and box `(0,1)` has bits `14 = 15 - 1`. -/
def exDouble : Game := ⟨[[(11, none), (14, none)]], 0, 0, false, none⟩

/-- Game states reachable from the empty board by single-segment placements
(each step is one successful `add_segment` at an in-range box with one of the
four direction tuples — this is how both the move generator and the
human-move path mutate a board). -/
inductive Reachable (L C : Nat) : Game → Prop where
  | empty : Reachable L C (emptyGame L C)
  | step : ∀ (g : Game) (d : Dir) (i j : Nat) (p : Player) (g' : Game),
      Reachable L C g → i < L → j < C → d ∈ dirList →
      addSegment L C g d i j p = some g' → Reachable L C g'

/-! ### Basic board lemmas -/

theorem getD_set_self (l : List α) (i : Nat) (r d : α) (hi : i < l.length) :
    (l.set i r).getD i d = r := by
  rw [List.getD_eq_getElem?_getD, List.getElem?_set_self hi]; rfl

theorem getD_set_ne (l : List α) (i i' : Nat) (r d : α) (h : i ≠ i') :
    (l.set i r).getD i' d = l.getD i' d := by
  rw [List.getD_eq_getElem?_getD, List.getElem?_set_ne h, ← List.getD_eq_getElem?_getD]

theorem setBox_board_length (g : Game) (i j : Nat) (b : Nat × Option Player) :
    (setBox g i j b).board.length = g.board.length := by
  simp [setBox]

theorem getBox_setBox_self (g : Game) (i j : Nat) (b : Nat × Option Player)
    (hi : i < g.board.length) (hj : j < (g.board.getD i []).length) :
    getBox (setBox g i j b) i j = b := by
  unfold getBox setBox
  simp only
  rw [getD_set_self _ _ _ _ hi, getD_set_self _ _ _ _ hj]

theorem getBox_setBox_ne (g : Game) (i j i' j' : Nat) (b : Nat × Option Player)
    (h : i' ≠ i ∨ j' ≠ j) : getBox (setBox g i j b) i' j' = getBox g i' j' := by
  unfold getBox setBox
  simp only
  rcases eq_or_ne i i' with rfl | hne
  · rcases h with h | h
    · exact absurd rfl h
    · rcases Nat.lt_or_ge i g.board.length with hi | hi
      · rw [getD_set_self _ _ _ _ hi, getD_set_ne _ j j' _ _ (fun hh => h hh.symm)]
      · rw [List.set_eq_of_length_le hi]
  · rw [getD_set_ne _ _ _ _ _ hne]

theorem wf_setBox (L C : Nat) (g : Game) (i j : Nat) (b : Nat × Option Player)
    (hw : Wf L C g) : Wf L C (setBox g i j b) := by
  obtain ⟨h1, h2⟩ := hw
  refine ⟨by simp [setBox, h1], fun i' hi' => ?_⟩
  unfold setBox
  simp only
  rcases eq_or_ne i i' with rfl | hne
  · rcases Nat.lt_or_ge i g.board.length with hi | hi
    · rw [getD_set_self _ _ _ _ hi, List.length_set]
      exact h2 i hi'
    · rw [List.set_eq_of_length_le hi]
      exact h2 i hi'
  · rw [getD_set_ne _ _ _ _ _ hne]
    exact h2 i' hi'

theorem wf_range (L C : Nat) (g : Game) (i j : Nat) (hw : Wf L C g)
    (hi : i < L) (hj : j < C) :
    i < g.board.length ∧ j < (g.board.getD i []).length :=
  ⟨hw.1 ▸ hi, by rw [hw.2 i hi]; exact hj⟩

/-! ### Characterization of `completeBox` -/

theorem getBox_override (g : Game) (a b : Nat) (c : Bool) (ls : Option (Nat × Nat × Player))
    (i j : Nat) :
    getBox { g with scoreMin := a, scoreMax := b, filledBox := c, lastSegment := ls } i j =
      getBox g i j := rfl

theorem getBox_withLast (g : Game) (ls : Option (Nat × Nat × Player)) (i j : Nat) :
    getBox { g with lastSegment := ls } i j = getBox g i j := rfl

/-- Normal form of `complete_box` at an in-range box: one `setBox` plus field
updates, with the completion test on the freshly written bits. -/
theorem completeBox_eq (g : Game) (d i j : Nat) (p : Player)
    (hi : i < g.board.length) (hj : j < (g.board.getD i []).length) :
    completeBox g d i j p =
      if (boxBits g i j + d) &&& 15 = 15 then
        { setBox g i j (boxBits g i j + d, some p) with
            scoreMin := g.scoreMin + (if p = .Pmin then 1 else 0),
            scoreMax := g.scoreMax + (if p = .Pmax then 1 else 0),
            filledBox := true, lastSegment := some (i, j, p) }
      else
        { setBox g i j (boxBits g i j + d, boxOwner g i j) with
            lastSegment := some (i, j, p) } := by
  have hre : boxBits { setBox g i j ((getBox g i j).1 + d, (getBox g i j).2) with
      lastSegment := some (i, j, p) } i j = boxBits g i j + d := by
    show (getBox (setBox g i j ((getBox g i j).1 + d, (getBox g i j).2)) i j).1 = _
    rw [getBox_setBox_self _ _ _ _ hi hj]
    rfl
  cases p <;>
  · simp only [completeBox, hre]
    split
    · simp only [setBox, boxBits, boxOwner]
      congr 1
      simp only [List.set_set]
      rw [getD_set_self _ _ _ _ hi, List.set_set]
    · rfl

theorem completeBox_getBox_self (g : Game) (d i j : Nat) (p : Player)
    (hi : i < g.board.length) (hj : j < (g.board.getD i []).length) :
    getBox (completeBox g d i j p) i j =
      (boxBits g i j + d,
        if (boxBits g i j + d) &&& 15 = 15 then some p else boxOwner g i j) := by
  rw [completeBox_eq g d i j p hi hj]
  split
  · rw [getBox_override, getBox_setBox_self _ _ _ _ hi hj]
  · rw [getBox_withLast, getBox_setBox_self _ _ _ _ hi hj]

theorem completeBox_getBox_ne (g : Game) (d i j : Nat) (p : Player) (i' j' : Nat)
    (hi : i < g.board.length) (hj : j < (g.board.getD i []).length)
    (h : i' ≠ i ∨ j' ≠ j) :
    getBox (completeBox g d i j p) i' j' = getBox g i' j' := by
  rw [completeBox_eq g d i j p hi hj]
  split
  · rw [getBox_override, getBox_setBox_ne _ _ _ _ _ _ h]
  · rw [getBox_withLast, getBox_setBox_ne _ _ _ _ _ _ h]

theorem completeBox_scoreMin (g : Game) (d i j : Nat) (p : Player)
    (hi : i < g.board.length) (hj : j < (g.board.getD i []).length) :
    (completeBox g d i j p).scoreMin =
      g.scoreMin +
        (if (boxBits g i j + d) &&& 15 = 15 ∧ p = .Pmin then 1 else 0) := by
  rw [completeBox_eq g d i j p hi hj]
  split <;> rename_i h <;> simp [setBox, h]

theorem completeBox_scoreMax (g : Game) (d i j : Nat) (p : Player)
    (hi : i < g.board.length) (hj : j < (g.board.getD i []).length) :
    (completeBox g d i j p).scoreMax =
      g.scoreMax +
        (if (boxBits g i j + d) &&& 15 = 15 ∧ p = .Pmax then 1 else 0) := by
  rw [completeBox_eq g d i j p hi hj]
  split <;> rename_i h <;> simp [setBox, h]

theorem completeBox_filledBox (g : Game) (d i j : Nat) (p : Player)
    (hi : i < g.board.length) (hj : j < (g.board.getD i []).length) :
    (completeBox g d i j p).filledBox =
      (g.filledBox || decide ((boxBits g i j + d) &&& 15 = 15)) := by
  rw [completeBox_eq g d i j p hi hj]
  split <;> rename_i h <;> simp [setBox, h]

theorem completeBox_lastSegment (g : Game) (d i j : Nat) (p : Player)
    (hi : i < g.board.length) (hj : j < (g.board.getD i []).length) :
    (completeBox g d i j p).lastSegment = some (i, j, p) := by
  rw [completeBox_eq g d i j p hi hj]
  split <;> rfl

theorem wf_completeBox (L C : Nat) (g : Game) (d i j : Nat) (p : Player)
    (hw : Wf L C g) (hi : i < g.board.length) (hj : j < (g.board.getD i []).length) :
    Wf L C (completeBox g d i j p) := by
  rw [completeBox_eq g d i j p hi hj]
  split
  · exact wf_setBox L C g i j _ hw
  · exact wf_setBox L C g i j _ hw

/-! ### Owned-box counting and score accounting -/

theorem countP_set_general (p : α → Bool) (l : List α) (n : Nat) (a d : α)
    (hn : n < l.length) :
    (l.set n a).countP p + (if p (l.getD n d) then 1 else 0) =
      l.countP p + (if p a then 1 else 0) := by
  induction l generalizing n with
  | nil => simp at hn
  | cons x tl ih =>
    cases n with
    | zero => simp [List.countP_cons]; omega
    | succ n =>
      simp only [List.set_cons_succ, List.countP_cons, List.getD_cons_succ]
      have := ih n (Nat.lt_of_succ_lt_succ hn)
      omega

theorem sum_set_general (l : List Nat) (n : Nat) (v : Nat) (hn : n < l.length) :
    (l.set n v).sum + l.getD n 0 = l.sum + v := by
  induction l generalizing n with
  | nil => simp at hn
  | cons x tl ih =>
    cases n with
    | zero => simp [Nat.add_comm, Nat.add_left_comm]
    | succ n =>
      simp only [List.set_cons_succ, List.sum_cons, List.getD_cons_succ]
      have := ih n (Nat.lt_of_succ_lt_succ hn)
      omega

theorem ownedCount_override (g : Game) (a b : Nat) (c : Bool)
    (ls : Option (Nat × Nat × Player)) :
    ownedCount { g with scoreMin := a, scoreMax := b, filledBox := c, lastSegment := ls } =
      ownedCount g := rfl

theorem ownedCount_withLast (g : Game) (ls : Option (Nat × Nat × Player)) :
    ownedCount { g with lastSegment := ls } = ownedCount g := rfl

theorem ownedCount_setBox (g : Game) (i j : Nat) (b : Nat × Option Player)
    (hi : i < g.board.length) (hj : j < (g.board.getD i []).length) :
    ownedCount (setBox g i j b) + (if (boxOwner g i j).isSome then 1 else 0) =
      ownedCount g + (if b.2.isSome then 1 else 0) := by
  have hlen : i < (g.board.map rowOwned).length := by simpa using hi
  have hmapD : (g.board.map rowOwned).getD i 0 = rowOwned (g.board.getD i []) := by
    rw [List.getD_eq_getElem?_getD, List.getElem?_map, List.getElem?_eq_getElem hi]
    simp [List.getD_eq_getElem?_getD, List.getElem?_eq_getElem hi]
  have hsum := sum_set_general (g.board.map rowOwned) i
    (rowOwned ((g.board.getD i []).set j b)) hlen
  rw [hmapD] at hsum
  have hrow : rowOwned ((g.board.getD i []).set j b) +
      (if ((g.board.getD i []).getD j (0, none)).2.isSome then 1 else 0) =
        rowOwned (g.board.getD i []) + (if b.2.isSome then 1 else 0) := by
    have := countP_set_general (fun bb => bb.2.isSome) (g.board.getD i []) j b (0, none) hj
    simpa [rowOwned] using this
  unfold ownedCount setBox boxOwner getBox
  simp only
  rw [List.map_set]
  omega

theorem completeBox_ownedCount (g : Game) (d i j : Nat) (p : Player)
    (hi : i < g.board.length) (hj : j < (g.board.getD i []).length) :
    ownedCount (completeBox g d i j p) + (if (boxOwner g i j).isSome then 1 else 0) =
      ownedCount g +
        (if (boxBits g i j + d) &&& 15 = 15 then 1
         else if (boxOwner g i j).isSome then 1 else 0) := by
  rw [completeBox_eq g d i j p hi hj]
  split
  · rw [ownedCount_override, ownedCount_setBox g i j _ hi hj]
    simp
  · rw [ownedCount_withLast, ownedCount_setBox g i j _ hi hj]

theorem completeBox_scoreSum (g : Game) (d i j : Nat) (p : Player) :
    scoreSum g ≤ scoreSum (completeBox g d i j p) ∧
      scoreSum (completeBox g d i j p) ≤ scoreSum g + 1 := by
  unfold scoreSum
  cases p <;>
  · simp only [completeBox]
    split <;> simp [setBox] <;> omega

/-! ### Basic facts about `addSegment` -/

theorem addSegment_none_iff (L C : Nat) (g : Game) (d : Dir) (i j : Nat) (p : Player) :
    addSegment L C g d i j p = none ↔ boxBits g i j &&& d.bit ≠ 0 := by
  simp only [addSegment]
  split
  · simp_all
  · split <;> simp_all

theorem addSegment_isSome (L C : Nat) (g : Game) (d : Dir) (i j : Nat) (p : Player) :
    (addSegment L C g d i j p).isSome = (boxBits g i j &&& d.bit == 0) := by
  simp only [addSegment]
  split <;> rename_i h
  · simp [h]
  · split <;> simp_all

theorem addSegment_scoreSum (L C : Nat) (g : Game) (d : Dir) (i j : Nat) (p : Player)
    (g' : Game) (h : addSegment L C g d i j p = some g') :
    scoreSum g ≤ scoreSum g' ∧ scoreSum g' ≤ scoreSum g + 2 := by
  simp only [addSegment] at h
  split at h
  · exact absurd h (by simp)
  · have h1 := completeBox_scoreSum g d.bit i j p
    split at h <;> rw [Option.some_inj] at h <;> subst h
    · have h2 := completeBox_scoreSum (completeBox g d.bit i j p) d.mbit
        ((i : Int) + d.di).toNat ((j : Int) + d.dj).toNat p
      exact ⟨Nat.le_trans h1.1 h2.1, by omega⟩
    · exact ⟨h1.1, by omega⟩

/-! ### Counting the generated moves (claim C4 infrastructure) -/

theorem gameMoves_eq_map (L C : Nat) (g : Game) (p : Player) :
    gameMoves L C g p =
      (canonicalPositions L C).map fun t => addSegment L C g t.1 t.2.1 t.2.2 p := by
  unfold gameMoves canonicalPositions
  simp only [List.map_append, List.map_flatMap, List.map_map, List.map_cons, List.map_nil,
    Function.comp]
  rfl

theorem sum_map_const_range (n k : Nat) : ((List.range n).map fun _ => k).sum = n * k := by
  induction n with
  | zero => simp
  | succ m ih =>
    rw [List.range_succ, List.map_append, List.sum_append, ih]
    simp [Nat.succ_mul]

theorem length_canonicalPositions (L C : Nat) :
    (canonicalPositions L C).length = totalSegments L C := by
  unfold canonicalPositions totalSegments
  rw [List.length_append, List.length_flatMap, List.length_map, List.length_range]
  have hconst : List.map (List.length ∘ fun i =>
      ((List.range C).flatMap fun j => [(dUp, i, j), (dLeft, i, j)])
      ++ [(dRight, i, C - 1)]) (List.range L) =
      (List.range L).map fun _ => 2 * C + 1 := by
    apply List.map_congr_left
    intro i _
    simp only [Function.comp, List.length_append, List.length_flatMap, List.length_cons,
      List.length_nil, List.length_map]
    have : List.map (List.length ∘ fun j => [(dUp, i, j), (dLeft, i, j)]) (List.range C) =
        (List.range C).map fun _ => 2 := by
      apply List.map_congr_left
      intro j _
      rfl
    rw [this, sum_map_const_range]
    omega
  rw [hconst, sum_map_const_range]
  ring

theorem length_filterMap_map_option (l : List α) (f : α → Option β) (h : β → γ) :
    (l.filterMap fun x => (f x).map h).length = l.countP fun x => (f x).isSome := by
  induction l with
  | nil => rfl
  | cons x xs ih =>
    cases hfx : f x <;> simp [List.filterMap_cons, hfx, ih, List.countP_cons]

theorem stateMoves_length_eq_undrawn (L C : Nat) (s : SState) :
    (stateMoves L C s).length = undrawnCount L C s.game := by
  unfold stateMoves undrawnCount
  rw [gameMoves_eq_map, List.filterMap_map]
  have heq : ((fun og => Option.map (fun g =>
        SState.mk g (if g.filledBox = false then nextPlayerOf s else s.currentPlayer)
          (s.depth - 1)) og) ∘
      fun t : Dir × Nat × Nat => addSegment L C s.game t.1 t.2.1 t.2.2 s.currentPlayer) =
      fun t : Dir × Nat × Nat => (addSegment L C s.game t.1 t.2.1 t.2.2 s.currentPlayer).map
        (fun g => SState.mk g (if g.filledBox = false then nextPlayerOf s else s.currentPlayer)
          (s.depth - 1)) := rfl
  rw [heq, length_filterMap_map_option]
  apply List.countP_congr
  intro t _
  rw [addSegment_isSome]

theorem undrawn_add_drawn (L C : Nat) (g : Game) :
    undrawnCount L C g + drawnCount L C g = totalSegments L C := by
  unfold undrawnCount drawnCount
  rw [← length_canonicalPositions L C]
  have := List.length_eq_countP_add_countP
    (fun t : Dir × Nat × Nat => boxBits g t.2.1 t.2.2 &&& t.1.bit == 0)
    (canonicalPositions L C)
  rw [this]
  congr 1
  apply List.countP_congr
  intro t _
  cases h : boxBits g t.2.1 t.2.2 &&& t.1.bit == 0 <;> simp_all

theorem stateMoves_length (L C : Nat) (s : SState) :
    (stateMoves L C s).length = totalSegments L C - drawnCount L C s.game := by
  have h1 := stateMoves_length_eq_undrawn L C s
  have h2 := undrawn_add_drawn L C s.game
  omega

/-! ### Each undrawn segment is enumerated exactly once -/

theorem nodup_flatMap_range (f : Nat → List α) (proj : α → Nat) (n : Nat)
    (htag : ∀ j, ∀ x ∈ f j, proj x = j) (hnd : ∀ j, (f j).Nodup) :
    ((List.range n).flatMap f).Nodup := by
  induction n with
  | zero => simp
  | succ m ih =>
    rw [List.range_succ, List.flatMap_append, List.nodup_append]
    refine ⟨ih, by simpa using hnd m, ?_⟩
    intro x hx hx'
    simp only [List.flatMap_cons, List.flatMap_nil, List.append_nil] at hx'
    obtain ⟨a, ha, hxa⟩ := List.mem_flatMap.1 hx
    have h1 := htag a x hxa
    have h2 := htag m x hx'
    rw [List.mem_range] at ha
    omega

theorem nodup_segIds (L C : Nat) : ((canonicalPositions L C).map segId).Nodup := by
  unfold canonicalPositions
  simp only [List.map_append, List.map_flatMap, List.map_map, List.map_cons, List.map_nil,
    Function.comp]
  have e1 : ∀ i j : Nat, segId (dUp, i, j) = (true, i, j) := fun _ _ => rfl
  have e2 : ∀ i j : Nat, segId (dLeft, i, j) = (false, i, j) := fun _ _ => rfl
  have e3 : ∀ i j : Nat, segId (dRight, i, j) = (false, i, j + 1) := fun _ _ => rfl
  have e4 : ∀ i j : Nat, segId (dDown, i, j) = (true, i + 1, j) := fun _ _ => rfl
  simp only [e1, e2, e3, e4]
  have hrowA : ∀ i : Nat, ∀ x ∈ ((List.range C).flatMap fun j =>
      [((true : Bool), i, j), ((false : Bool), i, j)]) ++ [((false : Bool), i, C - 1 + 1)],
      x.2.1 = i := by
    intro i x hx
    rcases List.mem_append.1 hx with hx | hx
    · obtain ⟨j, _, hxj⟩ := List.mem_flatMap.1 hx
      simp only [List.mem_cons, List.not_mem_nil, or_false] at hxj
      rcases hxj with rfl | rfl <;> rfl
    · simp only [List.mem_singleton] at hx
      subst hx
      rfl
  rw [List.nodup_append]
  refine ⟨?_, ?_, ?_⟩
  · apply nodup_flatMap_range _ (fun x => x.2.1) L hrowA
    intro i
    rw [List.nodup_append]
    refine ⟨?_, by simp, ?_⟩
    · apply nodup_flatMap_range _ (fun x => x.2.2) C
      · intro j x hx
        simp only [List.mem_cons, List.not_mem_nil, or_false] at hx
        rcases hx with rfl | rfl <;> rfl
      · intro j
        simp
    · intro x hx hx'
      simp only [List.mem_singleton] at hx'
      subst hx'
      obtain ⟨j, hj, hxj⟩ := List.mem_flatMap.1 hx
      rw [List.mem_range] at hj
      simp only [List.mem_cons, List.not_mem_nil, or_false] at hxj
      rcases hxj with h | h
      · exact absurd (congrArg (fun t => t.1) h) (by simp)
      · have := congrArg (fun t => t.2.2) h
        simp only at this
        omega
  · apply List.Nodup.map _ (List.nodup_range C)
    intro a b hab
    simpa using congrArg (fun t => t.2.2) hab
  · intro x hxA hxB
    obtain ⟨i, hi, hxi⟩ := List.mem_flatMap.1 hxA
    rw [List.mem_range] at hi
    have h1 := hrowA i x hxi
    obtain ⟨j, _, hxj⟩ := List.mem_map.1 hxB
    simp only [Function.comp_apply, e4] at hxj
    have h2 := congrArg (fun t => t.2.1) hxj
    simp only at h2
    omega

/-! ### Equivalence of `alpha_beta` and `min_max` (claim C2 infrastructure)

With the source's bound updates (`alpha = min(alpha, score)` on `MAX`,
`beta = max(beta, score)` on `MIN`), `alpha` can only decrease and `beta` only
increase, so from any window `alpha < beta` the cutoff `alpha >= beta` never
fires and alpha-beta scores every child exactly as minimax does. -/

theorem foldBest_max_some (xs : List (SState × Int)) (a : SState × Int) :
    xs.foldl bestStepMax (some a) = some (xs.foldl (chooseStep .Pmax) a) := by
  induction xs generalizing a with
  | nil => rfl
  | cons y ys ih =>
    simp only [List.foldl_cons]
    have hstep : bestStepMax (some a) y = some (chooseStep .Pmax a y) := by
      by_cases h : a.2 < y.2 <;> simp [bestStepMax, chooseStep, abImprove, gt_iff_lt, h]
    rw [hstep, ih]

theorem foldBest_min_some (xs : List (SState × Int)) (a : SState × Int) :
    xs.foldl bestStepMin (some a) = some (xs.foldl (chooseStep .Pmin) a) := by
  induction xs generalizing a with
  | nil => rfl
  | cons y ys ih =>
    simp only [List.foldl_cons]
    have hstep : bestStepMin (some a) y = some (chooseStep .Pmin a y) := by
      by_cases h : y.2 < a.2 <;> simp [bestStepMin, chooseStep, abWorsen, gt_iff_lt, h]
    rw [hstep, ih]

theorem abLoop_max_eq (L C var fuel : Nat) (ms : List SState) :
    ∀ (alpha beta : Int) (best : Option (SState × Int)), alpha < beta →
    (∀ c ∈ ms, ∀ a b : Int, a < b →
      alphaBetaF L C var fuel a b c = minMaxF L C var fuel c) →
    abLoop .Pmax (fun a b c => alphaBetaF L C var fuel a b c) ms alpha beta best =
      (scoreList (fun c => minMaxF L C var fuel c) ms).map
        fun l => l.foldl bestStepMax best := by
  induction ms with
  | nil => intro alpha beta best _ _; rfl
  | cons m ms ih =>
    intro alpha beta best hab hall
    have hm' := hall m (List.mem_cons_self m ms) alpha beta hab
    simp only [abLoop, scoreList, hm']
    cases hm : minMaxF L C var fuel m with
    | none => rfl
    | some r =>
      cases hr : r.score with
      | none => simp [hr]
      | some v =>
        have h1 : min alpha v < beta := lt_of_le_of_lt (min_le_left _ _) hab
        simp only [hr]
        split
        · rename_i hcut
          exfalso
          omega
        · rw [ih (min alpha v) beta _ h1 (fun c hc => hall c (List.mem_cons_of_mem _ hc))]
          cases hms : scoreList (fun c => minMaxF L C var fuel c) ms with
          | none => rfl
          | some l => simp [bestStepMax]

theorem abLoop_min_eq (L C var fuel : Nat) (ms : List SState) :
    ∀ (alpha beta : Int) (best : Option (SState × Int)), alpha < beta →
    (∀ c ∈ ms, ∀ a b : Int, a < b →
      alphaBetaF L C var fuel a b c = minMaxF L C var fuel c) →
    abLoop .Pmin (fun a b c => alphaBetaF L C var fuel a b c) ms alpha beta best =
      (scoreList (fun c => minMaxF L C var fuel c) ms).map
        fun l => l.foldl bestStepMin best := by
  induction ms with
  | nil => intro alpha beta best _ _; rfl
  | cons m ms ih =>
    intro alpha beta best hab hall
    have hm' := hall m (List.mem_cons_self m ms) alpha beta hab
    simp only [abLoop, scoreList, hm']
    cases hm : minMaxF L C var fuel m with
    | none => rfl
    | some r =>
      cases hr : r.score with
      | none => simp [hr]
      | some v =>
        have h1 : alpha < max beta v := lt_of_lt_of_le hab (le_max_left _ _)
        simp only [hr]
        split
        · rename_i hcut
          exfalso
          omega
        · rw [ih alpha (max beta v) _ h1 (fun c hc => hall c (List.mem_cons_of_mem _ hc))]
          cases hms : scoreList (fun c => minMaxF L C var fuel c) ms with
          | none => rfl
          | some l => simp [bestStepMin]

theorem alphaBeta_eq_minMax (L C var : Nat) (fuel : Nat) :
    ∀ (s : SState) (alpha beta : Int), alpha < beta →
      alphaBetaF L C var fuel alpha beta s = minMaxF L C var fuel s := by
  induction fuel with
  | zero =>
    intro s alpha beta hab
    simp only [alphaBetaF, minMaxF]
    by_cases hleaf : isLeaf L C s = true
    · simp [hleaf]
    · simp only [hleaf, Bool.false_eq_true, if_false]
      rw [if_neg (by exact not_lt.2 (le_of_lt hab))]
  | succ fuel ih =>
    intro s alpha beta hab
    simp only [alphaBetaF, minMaxF]
    by_cases hleaf : isLeaf L C s = true
    · simp [hleaf]
    · simp only [hleaf, Bool.false_eq_true, if_false]
      rw [if_neg (by exact not_lt.2 (le_of_lt hab))]
      have hall : ∀ c ∈ stateMoves L C s, ∀ a b : Int, a < b →
          alphaBetaF L C var fuel a b c = minMaxF L C var fuel c :=
        fun c _ a b hab' => ih c a b hab'
      cases hp : s.currentPlayer with
      | Pmax =>
        rw [abLoop_max_eq L C var fuel (stateMoves L C s) alpha beta none hab hall]
        cases hms : scoreList (fun c => minMaxF L C var fuel c) (stateMoves L C s) with
        | none => rfl
        | some l =>
          cases l with
          | nil => rfl
          | cons x xs =>
            have hfold : List.foldl bestStepMax none (x :: xs) =
                some (List.foldl (chooseStep .Pmax) x xs) := by
              rw [List.foldl_cons]
              have hfirst : bestStepMax none x = some x := rfl
              rw [hfirst, foldBest_max_some]
            simp [hfold]
      | Pmin =>
        rw [abLoop_min_eq L C var fuel (stateMoves L C s) alpha beta none hab hall]
        cases hms : scoreList (fun c => minMaxF L C var fuel c) (stateMoves L C s) with
        | none => rfl
        | some l =>
          cases l with
          | nil => rfl
          | cons x xs =>
            have hfold : List.foldl bestStepMin none (x :: xs) =
                some (List.foldl (chooseStep .Pmin) x xs) := by
              rw [List.foldl_cons]
              have hfirst : bestStepMin none x = some x := rfl
              rw [hfirst, foldBest_min_some]
            simp [hfold]

/-! ### Bit-level facts about the 4-bit segment encodings -/

theorem bitfact_add_le : ∀ x < 16, ∀ b ∈ [1, 2, 4, 8], x &&& b = 0 → x + b < 16 := by
  decide

theorem bitfact_ne15 : ∀ x < 16, ∀ b ∈ [1, 2, 4, 8], x &&& b = 0 → x ≠ 15 := by
  decide

theorem bitfact_self : ∀ x < 16, ∀ b ∈ [1, 2, 4, 8], x &&& b = 0 → (x + b) &&& b ≠ 0 := by
  decide

theorem bitfact_other : ∀ x < 16, ∀ b ∈ [1, 2, 4, 8], ∀ c ∈ [1, 2, 4, 8],
    x &&& b = 0 → b ≠ c → (x + b) &&& c = x &&& c := by
  decide

theorem bitfact_and15 : ∀ x < 16, (x &&& 15 = 15 ↔ x = 15) := by
  decide

/-! ### The reachable-state invariant (claim C6 infrastructure) -/

theorem getD_replicate_eq (n : Nat) (a d : α) (i : Nat) :
    (List.replicate n a).getD i d = if i < n then a else d := by
  rw [List.getD_eq_getElem?_getD, List.getElem?_replicate]
  split <;> rfl

theorem getBox_empty (L C : Nat) (i j : Nat) : getBox (emptyGame L C) i j = (0, none) := by
  unfold getBox emptyGame
  simp only
  rw [getD_replicate_eq]
  split
  · rw [getD_replicate_eq]
    split <;> rfl
  · rfl

theorem inv_empty (L C : Nat) : Inv L C (emptyGame L C) := by
  have hbox : ∀ i j, getBox (emptyGame L C) i j = (0, none) := getBox_empty L C
  refine ⟨⟨by simp [emptyGame], ?_⟩, ?_, ?_, ?_, ?_, ?_⟩
  · intro i hi
    unfold emptyGame
    simp only
    rw [List.getD_eq_getElem?_getD, List.getElem?_replicate, if_pos hi]
    simp
  · intro i j
    simp [boxBits, hbox]
  · intro i j
    simp [boxOwner, boxBits, hbox]
  · intro i j _ _
    simp [boxBits, hbox]
  · intro i j _ _
    simp [boxBits, hbox]
  · unfold scoreSum ownedCount emptyGame rowOwned
    simp [List.map_replicate]

/-- Full effect of one in-contract `complete_box` call on a box whose target
bit is free: board change, bounds, owner invariant, and score bookkeeping. -/
theorem completeBox_full (L C : Nat) (g : Game) (b i j : Nat) (p : Player)
    (hwf : Wf L C g) (hble : ∀ x y, boxBits g x y < 16)
    (hOwn : ∀ x y, (boxOwner g x y).isSome ↔ boxBits g x y = 15)
    (hi : i < L) (hj : j < C)
    (hb : b ∈ [1, 2, 4, 8]) (hfree : boxBits g i j &&& b = 0) :
    Wf L C (completeBox g b i j p) ∧
    boxBits (completeBox g b i j p) i j = boxBits g i j + b ∧
    (∀ x y, x ≠ i ∨ y ≠ j → getBox (completeBox g b i j p) x y = getBox g x y) ∧
    boxBits (completeBox g b i j p) i j < 16 ∧
    ((boxOwner (completeBox g b i j p) i j).isSome ↔
      boxBits (completeBox g b i j p) i j = 15) ∧
    scoreSum (completeBox g b i j p) =
      scoreSum g + (if boxBits g i j + b = 15 then 1 else 0) ∧
    ownedCount (completeBox g b i j p) =
      ownedCount g + (if boxBits g i j + b = 15 then 1 else 0) := by
  obtain ⟨hri, hrj⟩ := wf_range L C g i j hwf hi hj
  have hlt16 : boxBits g i j + b < 16 := bitfact_add_le _ (hble i j) b hb hfree
  have hcond : ((boxBits g i j + b) &&& 15 = 15) ↔ (boxBits g i j + b = 15) :=
    bitfact_and15 _ hlt16
  have holdNone : ¬ (boxOwner g i j).isSome := by
    rw [hOwn i j]
    exact bitfact_ne15 _ (hble i j) b hb hfree
  have hself := completeBox_getBox_self g b i j p hri hrj
  have hbits' : boxBits (completeBox g b i j p) i j = boxBits g i j + b := by
    simp only [boxBits, hself]
  have howner' : boxOwner (completeBox g b i j p) i j =
      (if (boxBits g i j + b) &&& 15 = 15 then some p else boxOwner g i j) := by
    simp only [boxOwner, hself]
  refine ⟨wf_completeBox L C g b i j p hwf hri hrj, hbits', ?_, ?_, ?_, ?_, ?_⟩
  · intro x y hxy
    exact completeBox_getBox_ne g b i j p x y hri hrj hxy
  · rw [hbits']
    exact hlt16
  · rw [hbits', howner']
    split <;> rename_i hc
    · simp [hcond.1 hc]
    · exact iff_of_false holdNone (fun h => hc (hcond.2 h))
  · unfold scoreSum
    rw [completeBox_scoreMin g b i j p hri hrj, completeBox_scoreMax g b i j p hri hrj]
    by_cases hc : (boxBits g i j + b) &&& 15 = 15
    · have h15 := hcond.1 hc
      cases p <;> simp [hc, h15] <;> omega
    · have h15 : ¬(boxBits g i j + b = 15) := fun h => hc (hcond.2 h)
      cases p <;> simp [hc, h15]
  · have hcnt := completeBox_ownedCount g b i j p hri hrj
    have hz : (if (boxOwner g i j).isSome = true then (1 : Nat) else 0) = 0 :=
      if_neg holdNone
    rw [hz] at hcnt
    by_cases hc : (boxBits g i j + b) &&& 15 = 15
    · have h15 := hcond.1 hc
      rw [if_pos hc] at hcnt
      rw [if_pos h15]
      omega
    · have h15 : ¬(boxBits g i j + b = 15) := fun h => hc (hcond.2 h)
      rw [if_neg hc] at hcnt
      rw [if_neg h15]
      omega

theorem propagate_lt16 (g g' : Game) (i j : Nat)
    (hother : ∀ x y, x ≠ i ∨ y ≠ j → getBox g' x y = getBox g x y)
    (hself : boxBits g' i j < 16) (hall : ∀ x y, boxBits g x y < 16) :
    ∀ x y, boxBits g' x y < 16 := by
  intro x y
  by_cases hx : x = i ∧ y = j
  · obtain ⟨rfl, rfl⟩ := hx
    exact hself
  · rw [boxBits, hother x y (by tauto)]
    exact hall x y

theorem propagate_owner (g g' : Game) (i j : Nat)
    (hother : ∀ x y, x ≠ i ∨ y ≠ j → getBox g' x y = getBox g x y)
    (hself : (boxOwner g' i j).isSome ↔ boxBits g' i j = 15)
    (hall : ∀ x y, (boxOwner g x y).isSome ↔ boxBits g x y = 15) :
    ∀ x y, (boxOwner g' x y).isSome ↔ boxBits g' x y = 15 := by
  intro x y
  by_cases hx : x = i ∧ y = j
  · obtain ⟨rfl, rfl⟩ := hx
    exact hself
  · rw [boxBits, boxOwner, hother x y (by tauto)]
    exact hall x y

theorem inScope_iff (L C : Nat) (a b : Int) :
    inScope L C a b = true ↔ 0 ≤ a ∧ a < L ∧ 0 ≤ b ∧ b < C := by
  unfold inScope
  simp [Bool.and_eq_true, decide_eq_true_eq, and_assoc]

/-- Drawing one internal segment draws both of its encodings: provided the two
target `(box, bit)` views address the same segment (the `hgeomV` / `hgeomH`
conditions state, per sync constraint, that its down-view is among the updates
iff its up-view is, and likewise for right/left), the invariant survives. -/
theorem pair_inv (L C : Nat) (g : Game) (p : Player) (i1 j1 b1 i2 j2 b2 : Nat)
    (hInv : Inv L C g)
    (hi1 : i1 < L) (hj1 : j1 < C) (hi2 : i2 < L) (hj2 : j2 < C)
    (hb1 : b1 ∈ [1, 2, 4, 8]) (hb2 : b2 ∈ [1, 2, 4, 8])
    (hne : ¬(i1 = i2 ∧ j1 = j2))
    (hfree1 : boxBits g i1 j1 &&& b1 = 0) (hfree2 : boxBits g i2 j2 &&& b2 = 0)
    (hgeomV : ∀ x y, x + 1 < L → y < C →
      (((x = i1 ∧ y = j1 ∧ b1 = 2) ∨ (x = i2 ∧ y = j2 ∧ b2 = 2)) ↔
       ((x + 1 = i1 ∧ y = j1 ∧ b1 = 8) ∨ (x + 1 = i2 ∧ y = j2 ∧ b2 = 8))))
    (hgeomH : ∀ x y, x < L → y + 1 < C →
      (((x = i1 ∧ y = j1 ∧ b1 = 4) ∨ (x = i2 ∧ y = j2 ∧ b2 = 4)) ↔
       ((x = i1 ∧ y + 1 = j1 ∧ b1 = 1) ∨ (x = i2 ∧ y + 1 = j2 ∧ b2 = 1)))) :
    Inv L C (completeBox (completeBox g b1 i1 j1 p) b2 i2 j2 p) := by
  obtain ⟨hwf, hble, hOwn, hsV, hsH, hscore⟩ := hInv
  obtain ⟨hwf1, hbits1, hother1, hle1, hown1, hsum1, hcnt1⟩ :=
    completeBox_full L C g b1 i1 j1 p hwf hble hOwn hi1 hj1 hb1 hfree1
  have hble1 : ∀ x y, boxBits (completeBox g b1 i1 j1 p) x y < 16 :=
    propagate_lt16 g _ i1 j1 hother1 hle1 hble
  have hOwn1 : ∀ x y,
      (boxOwner (completeBox g b1 i1 j1 p) x y).isSome ↔
        boxBits (completeBox g b1 i1 j1 p) x y = 15 :=
    propagate_owner g _ i1 j1 hother1 hown1 hOwn
  have hb21 : boxBits (completeBox g b1 i1 j1 p) i2 j2 = boxBits g i2 j2 := by
    rw [boxBits, hother1 i2 j2 (by tauto)]
    rfl
  have hfree2' : boxBits (completeBox g b1 i1 j1 p) i2 j2 &&& b2 = 0 := by
    rw [hb21]; exact hfree2
  obtain ⟨hwf2, hbits2, hother2, hle2, hown2, hsum2, hcnt2⟩ :=
    completeBox_full L C (completeBox g b1 i1 j1 p) b2 i2 j2 p hwf1 hble1 hOwn1 hi2 hj2
      hb2 hfree2'
  have hble2 : ∀ x y,
      boxBits (completeBox (completeBox g b1 i1 j1 p) b2 i2 j2 p) x y < 16 :=
    propagate_lt16 _ _ i2 j2 hother2 hle2 hble1
  have hOwn2 := propagate_owner _ _ i2 j2 hother2 hown2 hOwn1
  -- bits of the final game at the three kinds of positions
  have hg2_1 : boxBits (completeBox (completeBox g b1 i1 j1 p) b2 i2 j2 p) i1 j1 =
      boxBits g i1 j1 + b1 := by
    rw [boxBits, hother2 i1 j1 (by tauto)]
    exact hbits1
  have hg2_2 : boxBits (completeBox (completeBox g b1 i1 j1 p) b2 i2 j2 p) i2 j2 =
      boxBits g i2 j2 + b2 := by
    rw [hbits2, hb21]
  have hg2_o : ∀ x y, ¬(x = i1 ∧ y = j1) → ¬(x = i2 ∧ y = j2) →
      boxBits (completeBox (completeBox g b1 i1 j1 p) b2 i2 j2 p) x y =
        boxBits g x y := by
    intro x y h1 h2
    rw [boxBits, hother2 x y (by tauto), hother1 x y (by tauto)]
    rfl
  have hAnd : ∀ x y c, c ∈ [1, 2, 4, 8] → ¬(x = i1 ∧ y = j1 ∧ b1 = c) →
      ¬(x = i2 ∧ y = j2 ∧ b2 = c) →
      boxBits (completeBox (completeBox g b1 i1 j1 p) b2 i2 j2 p) x y &&& c =
        boxBits g x y &&& c := by
    intro x y c hc hn1 hn2
    by_cases h1 : x = i1 ∧ y = j1
    · obtain ⟨rfl, rfl⟩ := h1
      rw [hg2_1]
      exact bitfact_other _ (hble _ _) b1 hb1 c hc hfree1 fun hbc => hn1 ⟨rfl, rfl, hbc⟩
    · by_cases h2 : x = i2 ∧ y = j2
      · obtain ⟨rfl, rfl⟩ := h2
        rw [hg2_2]
        exact bitfact_other _ (hble _ _) b2 hb2 c hc hfree2 fun hbc => hn2 ⟨rfl, rfl, hbc⟩
      · rw [hg2_o x y h1 h2]
  have hSet : ∀ x y c, ((x = i1 ∧ y = j1 ∧ b1 = c) ∨ (x = i2 ∧ y = j2 ∧ b2 = c)) →
      boxBits (completeBox (completeBox g b1 i1 j1 p) b2 i2 j2 p) x y &&& c ≠ 0 := by
    intro x y c hup
    rcases hup with ⟨rfl, rfl, rfl⟩ | ⟨rfl, rfl, rfl⟩
    · rw [hg2_1]
      exact bitfact_self _ (hble _ _) b1 hb1 hfree1
    · rw [hg2_2]
      exact bitfact_self _ (hble _ _) b2 hb2 hfree2
  refine ⟨hwf2, hble2, hOwn2, ?_, ?_, ?_⟩
  · intro x y hx hy
    by_cases hup : (x = i1 ∧ y = j1 ∧ b1 = 2) ∨ (x = i2 ∧ y = j2 ∧ b2 = 2)
    · have hup' := (hgeomV x y hx hy).1 hup
      exact iff_of_false (hSet x y 2 hup) (hSet (x + 1) y 8 hup')
    · have hup' : ¬((x + 1 = i1 ∧ y = j1 ∧ b1 = 8) ∨ (x + 1 = i2 ∧ y = j2 ∧ b2 = 8)) :=
        fun hr => hup ((hgeomV x y hx hy).2 hr)
      rw [hAnd x y 2 (by decide) (fun h => hup (Or.inl h)) (fun h => hup (Or.inr h)),
        hAnd (x + 1) y 8 (by decide) (fun h => hup' (Or.inl h)) (fun h => hup' (Or.inr h))]
      exact hsV x y hx hy
  · intro x y hx hy
    by_cases hup : (x = i1 ∧ y = j1 ∧ b1 = 4) ∨ (x = i2 ∧ y = j2 ∧ b2 = 4)
    · have hup' := (hgeomH x y hx hy).1 hup
      exact iff_of_false (hSet x y 4 hup) (hSet x (y + 1) 1 hup')
    · have hup' : ¬((x = i1 ∧ y + 1 = j1 ∧ b1 = 1) ∨ (x = i2 ∧ y + 1 = j2 ∧ b2 = 1)) :=
        fun hr => hup ((hgeomH x y hx hy).2 hr)
      rw [hAnd x y 4 (by decide) (fun h => hup (Or.inl h)) (fun h => hup (Or.inr h)),
        hAnd x (y + 1) 1 (by decide) (fun h => hup' (Or.inl h)) (fun h => hup' (Or.inr h))]
      exact hsH x y hx hy
  · rw [hsum2, hcnt2, hsum1, hcnt1, hscore, hb21]

/-- Drawing a segment on the board's outer boundary touches a single box; no
sync constraint mentions the updated `(box, bit)` view (the `hgeomV` /
`hgeomH` conditions), so the invariant survives. -/
theorem single_inv (L C : Nat) (g : Game) (p : Player) (i j b : Nat)
    (hInv : Inv L C g) (hi : i < L) (hj : j < C) (hb : b ∈ [1, 2, 4, 8])
    (hfree : boxBits g i j &&& b = 0)
    (hgeomV : ∀ x y, x + 1 < L → y < C →
      ¬(x = i ∧ y = j ∧ b = 2) ∧ ¬(x + 1 = i ∧ y = j ∧ b = 8))
    (hgeomH : ∀ x y, x < L → y + 1 < C →
      ¬(x = i ∧ y = j ∧ b = 4) ∧ ¬(x = i ∧ y + 1 = j ∧ b = 1)) :
    Inv L C (completeBox g b i j p) := by
  obtain ⟨hwf, hble, hOwn, hsV, hsH, hscore⟩ := hInv
  obtain ⟨hwf1, hbits1, hother1, hle1, hown1, hsum1, hcnt1⟩ :=
    completeBox_full L C g b i j p hwf hble hOwn hi hj hb hfree
  have hAnd : ∀ x y c, c ∈ [1, 2, 4, 8] → ¬(x = i ∧ y = j ∧ b = c) →
      boxBits (completeBox g b i j p) x y &&& c = boxBits g x y &&& c := by
    intro x y c hc hn
    by_cases h1 : x = i ∧ y = j
    · obtain ⟨rfl, rfl⟩ := h1
      rw [hbits1]
      exact bitfact_other _ (hble _ _) b hb c hc hfree fun hbc => hn ⟨rfl, rfl, hbc⟩
    · rw [boxBits, hother1 x y (by tauto)]
      rfl
  refine ⟨hwf1, propagate_lt16 g _ i j hother1 hle1 hble,
    propagate_owner g _ i j hother1 hown1 hOwn, ?_, ?_, ?_⟩
  · intro x y hx hy
    obtain ⟨hn1, hn2⟩ := hgeomV x y hx hy
    rw [hAnd x y 2 (by decide) hn1, hAnd (x + 1) y 8 (by decide) hn2]
    exact hsV x y hx hy
  · intro x y hx hy
    obtain ⟨hn1, hn2⟩ := hgeomH x y hx hy
    rw [hAnd x y 4 (by decide) hn1, hAnd x (y + 1) 1 (by decide) hn2]
    exact hsH x y hx hy
  · rw [hsum1, hcnt1, hscore]

/-- A successful `add_segment` at an in-range box preserves the invariant. -/
theorem addSegment_inv (L C : Nat) (g : Game) (d : Dir) (i j : Nat) (p : Player)
    (g' : Game) (hInv : Inv L C g) (hi : i < L) (hj : j < C) (hd : d ∈ dirList)
    (h : addSegment L C g d i j p = some g') : Inv L C g' := by
  have hciL : (i : Int) < (L : Int) := by exact_mod_cast hi
  have hcjC : (j : Int) < (C : Int) := by exact_mod_cast hj
  simp only [dirList, List.mem_cons, List.not_mem_nil, or_false] at hd
  rcases hd with rfl | rfl | rfl | rfl
  · -- up: bit 8 at (i, j), mirrored bit 2 at (i - 1, j)
    simp only [addSegment, dUp] at h
    split at h
    · exact absurd h (by simp)
    · rename_i hfree0
      push_neg at hfree0
      split at h <;> rename_i hsc
      · rw [inScope_iff] at hsc
        have hi1 : 1 ≤ i := by omega
        have hni : ((i : Int) + -1).toNat = i - 1 := by omega
        have hnj : ((j : Int) + 0).toNat = j := by omega
        rw [hni, hnj, Option.some_inj] at h
        subst h
        have hsv := hInv.syncV (i - 1) j (by omega) hj
        rw [show i - 1 + 1 = i from by omega] at hsv
        exact pair_inv L C g p i j 8 (i - 1) j 2 hInv hi hj (by omega) hj
          (by decide) (by decide) (by omega) hfree0 (hsv.2 hfree0)
          (fun x y hx hy => by constructor <;> intro hh <;> omega)
          (fun x y hx hy => by constructor <;> intro hh <;> omega)
      · rw [inScope_iff] at hsc
        push_neg at hsc
        have hi0 : i = 0 := by omega
        rw [Option.some_inj] at h
        subst h
        exact single_inv L C g p i j 8 hInv hi hj (by decide) hfree0
          (fun x y hx hy => by omega) (fun x y hx hy => by omega)
  · -- left: bit 1 at (i, j), mirrored bit 4 at (i, j - 1)
    simp only [addSegment, dLeft] at h
    split at h
    · exact absurd h (by simp)
    · rename_i hfree0
      push_neg at hfree0
      split at h <;> rename_i hsc
      · rw [inScope_iff] at hsc
        have hj1 : 1 ≤ j := by omega
        have hni : ((i : Int) + 0).toNat = i := by omega
        have hnj : ((j : Int) + -1).toNat = j - 1 := by omega
        rw [hni, hnj, Option.some_inj] at h
        subst h
        have hsh := hInv.syncH i (j - 1) hi (by omega)
        rw [show j - 1 + 1 = j from by omega] at hsh
        exact pair_inv L C g p i j 1 i (j - 1) 4 hInv hi hj hi (by omega)
          (by decide) (by decide) (by omega) hfree0 (hsh.2 hfree0)
          (fun x y hx hy => by constructor <;> intro hh <;> omega)
          (fun x y hx hy => by constructor <;> intro hh <;> omega)
      · rw [inScope_iff] at hsc
        push_neg at hsc
        have hj0 : j = 0 := by omega
        rw [Option.some_inj] at h
        subst h
        exact single_inv L C g p i j 1 hInv hi hj (by decide) hfree0
          (fun x y hx hy => by omega) (fun x y hx hy => by omega)
  · -- right: bit 4 at (i, j), mirrored bit 1 at (i, j + 1)
    simp only [addSegment, dRight] at h
    split at h
    · exact absurd h (by simp)
    · rename_i hfree0
      push_neg at hfree0
      split at h <;> rename_i hsc
      · rw [inScope_iff] at hsc
        have hj1 : j + 1 < C := by omega
        have hni : ((i : Int) + 0).toNat = i := by omega
        have hnj : ((j : Int) + 1).toNat = j + 1 := by omega
        rw [hni, hnj, Option.some_inj] at h
        subst h
        have hsh := hInv.syncH i j hi hj1
        exact pair_inv L C g p i j 4 i (j + 1) 1 hInv hi hj hi hj1
          (by decide) (by decide) (by omega) hfree0 (hsh.1 hfree0)
          (fun x y hx hy => by constructor <;> intro hh <;> omega)
          (fun x y hx hy => by constructor <;> intro hh <;> omega)
      · rw [inScope_iff] at hsc
        push_neg at hsc
        have hjC : ¬ j + 1 < C := by omega
        rw [Option.some_inj] at h
        subst h
        exact single_inv L C g p i j 4 hInv hi hj (by decide) hfree0
          (fun x y hx hy => by omega) (fun x y hx hy => by omega)
  · -- down: bit 2 at (i, j), mirrored bit 8 at (i + 1, j)
    simp only [addSegment, dDown] at h
    split at h
    · exact absurd h (by simp)
    · rename_i hfree0
      push_neg at hfree0
      split at h <;> rename_i hsc
      · rw [inScope_iff] at hsc
        have hi1 : i + 1 < L := by omega
        have hni : ((i : Int) + 1).toNat = i + 1 := by omega
        have hnj : ((j : Int) + 0).toNat = j := by omega
        rw [hni, hnj, Option.some_inj] at h
        subst h
        have hsv := hInv.syncV i j hi1 hj
        exact pair_inv L C g p i j 2 (i + 1) j 8 hInv hi hj hi1 hj
          (by decide) (by decide) (by omega) hfree0 (hsv.1 hfree0)
          (fun x y hx hy => by constructor <;> intro hh <;> omega)
          (fun x y hx hy => by constructor <;> intro hh <;> omega)
      · rw [inScope_iff] at hsc
        push_neg at hsc
        have hiL : ¬ i + 1 < L := by omega
        rw [Option.some_inj] at h
        subst h
        exact single_inv L C g p i j 2 hInv hi hj (by decide) hfree0
          (fun x y hx hy => by omega) (fun x y hx hy => by omega)

/-- Every reachable game satisfies the invariant. -/
theorem reachable_inv (L C : Nat) (g : Game) (h : Reachable L C g) : Inv L C g := by
  induction h with
  | empty => exact inv_empty L C
  | step g d i j p g' _ hi hj hd hstep ih =>
    exact addSegment_inv L C g d i j p g' ih hi hj hd hstep

/-! ### Bounds on the heuristic evaluators (claim C7 infrastructure) -/

theorem obWhile_bounds (L C : Nat) (p : Player) :
    ∀ (fuel : Nat) (g : Game) (score count v : Nat),
      obWhile L C p fuel g score count = some v → score ≤ v ∧ v ≤ score + fuel := by
  intro fuel
  induction fuel with
  | zero =>
    intro g score count v h
    simp only [obWhile] at h
    split at h
    · rw [Option.some_inj] at h
      omega
    · exact absurd h (by simp)
  | succ fuel ih =>
    intro g score count v h
    simp only [obWhile] at h
    split at h
    · rw [Option.some_inj] at h
      omega
    · split at h
      · exact absurd h (by simp)
      · have := ih _ _ _ _ h
        omega

theorem openBoxes2_bounds (L C : Nat) (g : Game) (p : Player) (v : Nat)
    (h : openBoxes2 L C g p = some v) :
    v ≤ g.scoreMin + g.scoreMax + obFuel L C := by
  simp only [openBoxes2] at h
  cases p with
  | Pmin =>
    have hb := obWhile_bounds L C _ _ _ _ _ _ h
    have hred : (match Player.Pmin with
      | Player.Pmin => g.scoreMin | Player.Pmax => g.scoreMax) = g.scoreMin := rfl
    rw [hred] at hb
    omega
  | Pmax =>
    have hb := obWhile_bounds L C _ _ _ _ _ _ h
    have hred : (match Player.Pmax with
      | Player.Pmin => g.scoreMin | Player.Pmax => g.scoreMax) = g.scoreMax := rfl
    rw [hred] at hb
    omega

/-- Any value the non-terminal heuristic difference can produce, under the
configuration bounds and the reachable score bound, is dominated by the
`±100000` sentinels, for both heuristic policies. -/
theorem estimate_dominance (L C var : Nat) (g : Game) (v : Int)
    (hL : L ≤ 7) (hC : C ≤ 7) (hsum : g.scoreMin + g.scoreMax ≤ L * C)
    (hnf : g.scoreMin + g.scoreMax ≠ L * C)
    (h : estimateScore L C var g = some v) : -100000 < v ∧ v < 100000 := by
  have hfin : gameFinal L C g = .notFinal := by
    unfold gameFinal
    rw [if_pos hnf]
  unfold estimateScore at h
  rw [hfin] at h
  have hLC : L * C ≤ 49 := Nat.mul_le_mul hL hC
  have hfuel : obFuel L C ≤ 114 := by
    unfold obFuel
    have : L * C ≤ 49 := hLC
    nlinarith
  cases ha : openBoxes L C var g .Pmax with
  | none => rw [ha] at h; exact absurd h (by simp)
  | some a =>
    cases hb : openBoxes L C var g .Pmin with
    | none => rw [ha, hb] at h; exact absurd h (by simp)
    | some b =>
      rw [ha, hb] at h
      rw [Option.some_inj] at h
      subst h
      have hbound : ∀ (q : Player) (w : Int), openBoxes L C var g q = some w →
          0 ≤ w ∧ w ≤ 163 := by
        intro q w hw
        unfold openBoxes at hw
        split at hw
        · rw [Option.some_inj] at hw
          subst hw
          cases q with
          | Pmin =>
            have hred : openBoxes1 L C g .Pmin = (L * C : Int) - g.scoreMax := rfl
            rw [hred]
            omega
          | Pmax =>
            have hred : openBoxes1 L C g .Pmax = (L * C : Int) - g.scoreMin := rfl
            rw [hred]
            omega
        · cases hw2 : openBoxes2 L C g q with
          | none => rw [hw2] at hw; exact absurd hw (by simp)
          | some n =>
            rw [hw2] at hw
            have hw' : (n : Int) = w := Option.some_inj.1 hw
            have hbnd := openBoxes2_bounds L C g q n hw2
            rw [← hw']
            omega
      have h1 := hbound .Pmax a ha
      have h2 := hbound .Pmin b hb
      omega

/-! ### A non-terminal reachable state always has a move (claim C10 infrastructure) -/

theorem bitfact_missing : ∀ x < 16, x ≠ 15 →
    (x &&& 1 = 0 ∨ x &&& 2 = 0 ∨ x &&& 4 = 0 ∨ x &&& 8 = 0) := by
  decide

theorem sum_map_const_list (l : List α) (k : Nat) : (l.map fun _ => k).sum = l.length * k := by
  induction l with
  | nil => simp
  | cons x xs ih => simp [ih, Nat.succ_mul]; omega

theorem mem_canonical_up (L C i j : Nat) (hi : i < L) (hj : j < C) :
    (dUp, i, j) ∈ canonicalPositions L C := by
  unfold canonicalPositions
  rw [List.mem_append]
  left
  rw [List.mem_flatMap]
  refine ⟨i, by simpa using hi, ?_⟩
  rw [List.mem_append]
  left
  rw [List.mem_flatMap]
  exact ⟨j, by simpa using hj, by simp⟩

theorem mem_canonical_left (L C i j : Nat) (hi : i < L) (hj : j < C) :
    (dLeft, i, j) ∈ canonicalPositions L C := by
  unfold canonicalPositions
  rw [List.mem_append]
  left
  rw [List.mem_flatMap]
  refine ⟨i, by simpa using hi, ?_⟩
  rw [List.mem_append]
  left
  rw [List.mem_flatMap]
  exact ⟨j, by simpa using hj, by simp⟩

theorem mem_canonical_right (L C i : Nat) (hi : i < L) :
    (dRight, i, C - 1) ∈ canonicalPositions L C := by
  unfold canonicalPositions
  rw [List.mem_append]
  left
  rw [List.mem_flatMap]
  refine ⟨i, by simpa using hi, ?_⟩
  rw [List.mem_append]
  right
  simp

theorem mem_canonical_down (L C j : Nat) (hj : j < C) :
    (dDown, L - 1, j) ∈ canonicalPositions L C := by
  unfold canonicalPositions
  rw [List.mem_append]
  right
  rw [List.mem_map]
  exact ⟨j, by simpa using hj, rfl⟩

theorem exists_unowned_box (L C : Nat) (g : Game) (hwf : Wf L C g)
    (hcnt : ownedCount g < L * C) :
    ∃ i j, i < L ∧ j < C ∧ ¬(boxOwner g i j).isSome := by
  by_contra hall
  push_neg at hall
  have hrow : ∀ i, i < L → rowOwned (g.board.getD i []) = C := by
    intro i hi
    unfold rowOwned
    rw [List.countP_eq_length.2]
    · exact hwf.2 i hi
    · intro a ha
      obtain ⟨j, hj, hja⟩ := List.mem_iff_getElem.1 ha
      have hjC : j < C := by
        rw [← hwf.2 i hi]
        exact hj
      have := hall i j hi hjC
      rw [← hja]
      have hbx : getBox g i j = (g.board.getD i [])[j] := by
        unfold getBox
        rw [List.getD_eq_getElem?_getD, List.getElem?_eq_getElem hj]
        rfl
      rw [boxOwner, hbx] at this
      exact this
  have hmap : g.board.map rowOwned = g.board.map fun _ => C := by
    apply List.map_congr_left
    intro row hrowmem
    obtain ⟨i, hi, hirow⟩ := List.mem_iff_getElem.1 hrowmem
    have hiL : i < L := hwf.1 ▸ hi
    have : g.board.getD i [] = row := by
      rw [List.getD_eq_getElem?_getD, List.getElem?_eq_getElem hi, hirow]
      rfl
    rw [← this]
    exact hrow i hiL
  unfold ownedCount at hcnt
  rw [hmap, sum_map_const_list, hwf.1] at hcnt
  omega

theorem reachable_moves_nonempty (L C : Nat) (g : Game) (hr : Reachable L C g)
    (hnt : scoreSum g < L * C) (p : Player) (dep : Nat) :
    (stateMoves L C ⟨g, p, dep⟩).length ≠ 0 := by
  have hInv := reachable_inv L C g hr
  have hcnt : ownedCount g < L * C := by
    rw [← hInv.score_eq]
    exact hnt
  obtain ⟨i, j, hi, hj, hun⟩ := exists_unowned_box L C g hInv.wf hcnt
  have hne15 : boxBits g i j ≠ 15 := fun h15 => hun ((hInv.owner_iff i j).2 h15)
  have hmiss := bitfact_missing (boxBits g i j) (hInv.bits_le i j) hne15
  have hexists : ∃ t ∈ canonicalPositions L C,
      (boxBits g t.2.1 t.2.2 &&& t.1.bit == 0) = true := by
    rcases hmiss with hm | hm | hm | hm
    · exact ⟨(dLeft, i, j), mem_canonical_left L C i j hi hj,
        by simp only [beq_iff_eq]; exact hm⟩
    · by_cases hil : i = L - 1
      · subst hil
        exact ⟨(dDown, L - 1, j), mem_canonical_down L C j hj,
          by simp only [beq_iff_eq]; exact hm⟩
      · have hi1 : i + 1 < L := by omega
        have hsv := (hInv.syncV i j hi1 hj).1 hm
        exact ⟨(dUp, i + 1, j), mem_canonical_up L C (i + 1) j hi1 hj,
          by simp only [beq_iff_eq]; exact hsv⟩
    · by_cases hjc : j = C - 1
      · subst hjc
        exact ⟨(dRight, i, C - 1), mem_canonical_right L C i hi,
          by simp only [beq_iff_eq]; exact hm⟩
      · have hj1 : j + 1 < C := by omega
        have hsh := (hInv.syncH i j hi hj1).1 hm
        exact ⟨(dLeft, i, j + 1), mem_canonical_left L C i (j + 1) hi hj1,
          by simp only [beq_iff_eq]; exact hsh⟩
    · exact ⟨(dUp, i, j), mem_canonical_up L C i j hi hj,
        by simp only [beq_iff_eq]; exact hm⟩
  have hpos : 0 < undrawnCount L C g := by
    unfold undrawnCount
    rw [List.countP_pos]
    exact hexists
  rw [stateMoves_length_eq_undrawn]
  simp only
  omega

/-! ### Characterization of `check_position` (claim C8 infrastructure) -/

theorem completeBox_boxBits_self (g : Game) (d i j : Nat) (p : Player)
    (hi : i < g.board.length) (hj : j < (g.board.getD i []).length) :
    boxBits (completeBox g d i j p) i j = boxBits g i j + d := by
  rw [boxBits, completeBox_getBox_self g d i j p hi hj]

theorem completeBox_boxBits_ne (g : Game) (d i j : Nat) (p : Player) (x y : Nat)
    (hi : i < g.board.length) (hj : j < (g.board.getD i []).length)
    (h : ¬(x = i ∧ y = j)) :
    boxBits (completeBox g d i j p) x y = boxBits g x y := by
  rw [boxBits, completeBox_getBox_ne g d i j p x y hi hj (by tauto)]
  rfl

theorem bool_eq_false_of_not (b : Bool) (h : ¬ b = true) : b = false :=
  Bool.eq_false_iff.2 h

/-- Full characterization of `check_position` on an in-play (invariant
satisfying) board: it accepts exactly the in-range pairs with exactly one odd
coordinate whose addressed segment is still free, a rejection leaves the game
untouched, and an acceptance adds exactly the addressed segment's bit to each
of its adjacent boxes and touches no other box. -/
theorem checkPosition_spec (L C : Nat) (g : Game) (line col : Int)
    (hL : 1 ≤ L) (hC : 1 ≤ C) (hInv : Inv L C g) :
    ((checkPosition L C line col g).1 = true ↔
      (0 ≤ line ∧ line ≤ 2 * (L : Int) ∧ 0 ≤ col ∧ col ≤ 2 * (C : Int) ∧
        (line + col) % 2 = 1 ∧
        ∀ t ∈ segTargets L C line.toNat col.toNat,
          boxBits g t.1 t.2.1 &&& t.2.2 = 0)) ∧
    ((checkPosition L C line col g).1 = false → (checkPosition L C line col g).2 = g) ∧
    ((checkPosition L C line col g).1 = true →
      (∀ t ∈ segTargets L C line.toNat col.toNat,
        boxBits (checkPosition L C line col g).2 t.1 t.2.1 = boxBits g t.1 t.2.1 + t.2.2) ∧
      (∀ x y, (∀ t ∈ segTargets L C line.toNat col.toNat, ¬(x = t.1 ∧ y = t.2.1)) →
        getBox (checkPosition L C line col g).2 x y = getBox g x y)) := by
  obtain ⟨hwf, hble, hOwn, hsV, hsH, hsc⟩ := hInv
  by_cases hguard : 0 ≤ line ∧ line < 2 * (L : Int) + 1 ∧ 0 ≤ col ∧
      col < 2 * (C : Int) + 1 ∧ (line + col) % 2 = 1
  case neg =>
    have hval : checkPosition L C line col g = (false, g) := by
      simp only [checkPosition, if_neg hguard]
    rw [hval]
    refine ⟨?_, fun _ => rfl, fun habs => absurd habs (by simp)⟩
    constructor
    · intro h
      exact absurd h (by simp)
    · intro ⟨hr1, hr2, hr3, hr4, hr5, _⟩
      exact absurd (⟨hr1, by omega, hr3, by omega, hr5⟩ :
        0 ≤ line ∧ line < 2 * (L : Int) + 1 ∧ 0 ≤ col ∧
          col < 2 * (C : Int) + 1 ∧ (line + col) % 2 = 1) hguard
  case pos =>
    obtain ⟨h1, h2, h3, h4, h5⟩ := hguard
    have hpar : (line.toNat + col.toNat) % 2 = 1 := by omega
    by_cases hlpar : line.toNat % 2 = 0
    · -- horizontal segment: the column is odd
      have hcodd : col.toNat % 2 = 1 := by omega
      have hcC : col.toNat / 2 < C := by omega
      by_cases h2L : line.toNat = 2 * L
      · -- bottom boundary: the only view is bit 2 of box (L - 1, c)
        have hrL : line.toNat / 2 = L := by omega
        have hseg : segTargets L C line.toNat col.toNat =
            [(line.toNat / 2 - 1, col.toNat / 2, 2)] := by
          unfold segTargets
          rw [if_pos hlpar, if_neg (by omega), if_pos (by omega)]
          rfl
        have hfrp0 : findRelativePosition L C line.toNat col.toNat g =
            (if boxBits g (line.toNat / 2 - 1) (col.toNat / 2) &&& 2 = 0
             then RelPos.horizontal else RelPos.nonValid) := by
          unfold findRelativePosition
          rw [if_pos h2L]
        obtain ⟨hbi, hbj⟩ := wf_range L C g (line.toNat / 2 - 1) (col.toNat / 2) hwf
          (by omega) hcC
        by_cases hbit : boxBits g (line.toNat / 2 - 1) (col.toNat / 2) &&& 2 = 0
        · rw [if_pos hbit] at hfrp0
          have hs1 : inScope L C ((line.toNat / 2 : Nat) : Int)
              ((col.toNat / 2 : Nat) : Int) = false := by
            apply bool_eq_false_of_not
            rw [inScope_iff]
            omega
          have hs2 : inScope L C (((line.toNat / 2 : Nat) : Int) - 1)
              ((col.toNat / 2 : Nat) : Int) = true := by
            rw [inScope_iff]
            omega
          have hval : checkPosition L C line col g =
              (true, completeBox g 2 (line.toNat / 2 - 1) (col.toNat / 2) .Pmin) := by
            simp only [checkPosition, if_pos (⟨h1, h2, h3, h4, h5⟩ :
              0 ≤ line ∧ line < 2 * (L : Int) + 1 ∧ 0 ≤ col ∧
                col < 2 * (C : Int) + 1 ∧ (line + col) % 2 = 1),
              hfrp0, hs1, hs2]
            simp
          rw [hval, hseg]
          refine ⟨?_, by intro h; exact absurd h (by simp), ?_⟩
          · simp only [true_iff]
            refine ⟨h1, by omega, h3, by omega, h5, ?_⟩
            intro t ht
            simp only [List.mem_singleton] at ht
            subst ht
            exact hbit
          · intro _
            constructor
            · intro t ht
              simp only [List.mem_singleton] at ht
              subst ht
              exact completeBox_boxBits_self g 2 _ _ .Pmin hbi hbj
            · intro x y hxy
              have := hxy (line.toNat / 2 - 1, col.toNat / 2, 2) (by simp)
              exact completeBox_getBox_ne g 2 _ _ .Pmin x y hbi hbj (by tauto)
        · rw [if_neg hbit] at hfrp0
          have hval : checkPosition L C line col g = (false, g) := by
            simp only [checkPosition, if_pos (⟨h1, h2, h3, h4, h5⟩ :
              0 ≤ line ∧ line < 2 * (L : Int) + 1 ∧ 0 ≤ col ∧
                col < 2 * (C : Int) + 1 ∧ (line + col) % 2 = 1),
              hfrp0]
          rw [hval, hseg]
          refine ⟨?_, fun _ => rfl, fun habs => absurd habs (by simp)⟩
          constructor
          · intro h
            exact absurd h (by simp)
          · intro ⟨_, _, _, _, _, hall⟩
            exact absurd (hall (line.toNat / 2 - 1, col.toNat / 2, 2) (by simp)) hbit
      · -- interior or top horizontal segment: checked view is bit 8 of (r, c)
        have hrL : line.toNat / 2 < L := by omega
        have hfrp0 : findRelativePosition L C line.toNat col.toNat g =
            (if boxBits g (line.toNat / 2) (col.toNat / 2) &&& 8 = 0
             then RelPos.horizontal else RelPos.nonValid) := by
          unfold findRelativePosition
          rw [if_neg h2L, if_pos hlpar]
        obtain ⟨hbi, hbj⟩ := wf_range L C g (line.toNat / 2) (col.toNat / 2) hwf hrL hcC
        by_cases hbit : boxBits g (line.toNat / 2) (col.toNat / 2) &&& 8 = 0
        · rw [if_pos hbit] at hfrp0
          have hs1 : inScope L C ((line.toNat / 2 : Nat) : Int)
              ((col.toNat / 2 : Nat) : Int) = true := by
            rw [inScope_iff]
            omega
          by_cases hr0 : line.toNat / 2 = 0
          · -- top boundary: single view
            have hseg : segTargets L C line.toNat col.toNat =
                [(line.toNat / 2, col.toNat / 2, 8)] := by
              unfold segTargets
              rw [if_pos hlpar, if_pos (by omega), if_neg (by omega)]
              rfl
            have hs2 : inScope L C (((line.toNat / 2 : Nat) : Int) - 1)
                ((col.toNat / 2 : Nat) : Int) = false := by
              apply bool_eq_false_of_not
              rw [inScope_iff]
              omega
            have hval : checkPosition L C line col g =
                (true, completeBox g 8 (line.toNat / 2) (col.toNat / 2) .Pmin) := by
              simp only [checkPosition, if_pos (⟨h1, h2, h3, h4, h5⟩ :
                0 ≤ line ∧ line < 2 * (L : Int) + 1 ∧ 0 ≤ col ∧
                  col < 2 * (C : Int) + 1 ∧ (line + col) % 2 = 1),
                hfrp0, hs1, hs2]
              simp
            rw [hval, hseg]
            refine ⟨?_, by intro h; exact absurd h (by simp), ?_⟩
            · simp only [true_iff]
              refine ⟨h1, by omega, h3, by omega, h5, ?_⟩
              intro t ht
              simp only [List.mem_singleton] at ht
              subst ht
              exact hbit
            · intro _
              constructor
              · intro t ht
                simp only [List.mem_singleton] at ht
                subst ht
                exact completeBox_boxBits_self g 8 _ _ .Pmin hbi hbj
              · intro x y hxy
                have := hxy (line.toNat / 2, col.toNat / 2, 8) (by simp)
                exact completeBox_getBox_ne g 8 _ _ .Pmin x y hbi hbj (by tauto)
          · -- interior segment: both views drawn together
            have hseg : segTargets L C line.toNat col.toNat =
                [(line.toNat / 2, col.toNat / 2, 8),
                 (line.toNat / 2 - 1, col.toNat / 2, 2)] := by
              unfold segTargets
              rw [if_pos hlpar, if_pos (by omega), if_pos (by omega)]
              rfl
            have hs2 : inScope L C (((line.toNat / 2 : Nat) : Int) - 1)
                ((col.toNat / 2 : Nat) : Int) = true := by
              rw [inScope_iff]
              omega
            obtain ⟨hbi2, hbj2⟩ := wf_range L C g (line.toNat / 2 - 1) (col.toNat / 2)
              hwf (by omega) hcC
            have hsync := hsV (line.toNat / 2 - 1) (col.toNat / 2) (by omega) hcC
            rw [show line.toNat / 2 - 1 + 1 = line.toNat / 2 from by omega] at hsync
            have hval : checkPosition L C line col g =
                (true, completeBox (completeBox g 8 (line.toNat / 2) (col.toNat / 2) .Pmin)
                  2 (line.toNat / 2 - 1) (col.toNat / 2) .Pmin) := by
              simp only [checkPosition, if_pos (⟨h1, h2, h3, h4, h5⟩ :
                0 ≤ line ∧ line < 2 * (L : Int) + 1 ∧ 0 ≤ col ∧
                  col < 2 * (C : Int) + 1 ∧ (line + col) % 2 = 1),
                hfrp0, hs1, hs2]
              simp
            have hbi1' : line.toNat / 2 <
                (completeBox g 8 (line.toNat / 2) (col.toNat / 2) .Pmin).board.length ∧
                col.toNat / 2 <
                  ((completeBox g 8 (line.toNat / 2) (col.toNat / 2)
                    .Pmin).board.getD (line.toNat / 2 - 1) []).length := by
              have hwf1 := wf_completeBox L C g 8 (line.toNat / 2) (col.toNat / 2)
                .Pmin hwf hbi hbj
              exact ⟨hwf1.1 ▸ hrL, by rw [hwf1.2 _ (by omega)]; exact hcC⟩
            have hwf1 := wf_completeBox L C g 8 (line.toNat / 2) (col.toNat / 2)
              .Pmin hwf hbi hbj
            obtain ⟨hbi2', hbj2'⟩ := wf_range L C _ (line.toNat / 2 - 1) (col.toNat / 2)
              hwf1 (by omega) hcC
            rw [hval, hseg]
            refine ⟨?_, by intro h; exact absurd h (by simp), ?_⟩
            · simp only [true_iff]
              refine ⟨h1, by omega, h3, by omega, h5, ?_⟩
              intro t ht
              simp only [List.mem_cons, List.mem_singleton, List.not_mem_nil,
                or_false] at ht
              rcases ht with rfl | rfl
              · exact hbit
              · exact hsync.2 hbit
            · intro _
              have hneq : ¬(line.toNat / 2 - 1 = line.toNat / 2 ∧
                  col.toNat / 2 = col.toNat / 2) := by omega
              constructor
              · intro t ht
                simp only [List.mem_cons, List.mem_singleton, List.not_mem_nil,
                  or_false] at ht
                rcases ht with rfl | rfl
                · rw [completeBox_boxBits_ne _ 2 _ _ .Pmin _ _ hbi2' hbj2' (by omega)]
                  exact completeBox_boxBits_self g 8 _ _ .Pmin hbi hbj
                · rw [completeBox_boxBits_self _ 2 _ _ .Pmin hbi2' hbj2',
                    completeBox_boxBits_ne g 8 _ _ .Pmin _ _ hbi hbj (by omega)]
              · intro x y hxy
                have hx1 := hxy (line.toNat / 2, col.toNat / 2, 8) (by simp)
                have hx2 := hxy (line.toNat / 2 - 1, col.toNat / 2, 2) (by simp)
                rw [completeBox_getBox_ne _ 2 _ _ .Pmin x y hbi2' hbj2' (by tauto),
                  completeBox_getBox_ne g 8 _ _ .Pmin x y hbi hbj (by tauto)]
        · rw [if_neg hbit] at hfrp0
          have hval : checkPosition L C line col g = (false, g) := by
            simp only [checkPosition, if_pos (⟨h1, h2, h3, h4, h5⟩ :
              0 ≤ line ∧ line < 2 * (L : Int) + 1 ∧ 0 ≤ col ∧
                col < 2 * (C : Int) + 1 ∧ (line + col) % 2 = 1),
              hfrp0]
          have hmem : (line.toNat / 2, col.toNat / 2, 8) ∈
              segTargets L C line.toNat col.toNat := by
            unfold segTargets
            rw [if_pos hlpar]
            rw [List.mem_append]
            left
            rw [if_pos (by omega)]
            simp
          rw [hval]
          refine ⟨?_, fun _ => rfl, fun habs => absurd habs (by simp)⟩
          constructor
          · intro h
            exact absurd h (by simp)
          · intro ⟨_, _, _, _, _, hall⟩
            exact absurd (hall _ hmem) hbit
    · -- vertical segment: the line is odd
      have hlodd : line.toNat % 2 = 1 := by omega
      have hceven : col.toNat % 2 = 0 := by omega
      have hrL : line.toNat / 2 < L := by omega
      by_cases h2C : col.toNat = 2 * C
      · -- right boundary: the only view is bit 4 of (r, C - 1)
        have hcCeq : col.toNat / 2 = C := by omega
        have hseg : segTargets L C line.toNat col.toNat =
            [(line.toNat / 2, col.toNat / 2 - 1, 4)] := by
          unfold segTargets
          rw [if_neg (by omega), if_neg (by omega), if_pos (by omega)]
          rfl
        have hfrp0 : findRelativePosition L C line.toNat col.toNat g =
            (if boxBits g (line.toNat / 2) (col.toNat / 2 - 1) &&& 4 = 0
             then RelPos.vertical else RelPos.nonValid) := by
          unfold findRelativePosition
          rw [if_neg (by omega), if_neg (by omega), if_pos h2C]
        obtain ⟨hbi, hbj⟩ := wf_range L C g (line.toNat / 2) (col.toNat / 2 - 1) hwf
          hrL (by omega)
        by_cases hbit : boxBits g (line.toNat / 2) (col.toNat / 2 - 1) &&& 4 = 0
        · rw [if_pos hbit] at hfrp0
          have hs1 : inScope L C ((line.toNat / 2 : Nat) : Int)
              ((col.toNat / 2 : Nat) : Int) = false := by
            apply bool_eq_false_of_not
            rw [inScope_iff]
            omega
          have hs2 : inScope L C ((line.toNat / 2 : Nat) : Int)
              (((col.toNat / 2 : Nat) : Int) - 1) = true := by
            rw [inScope_iff]
            omega
          have hval : checkPosition L C line col g =
              (true, completeBox g 4 (line.toNat / 2) (col.toNat / 2 - 1) .Pmin) := by
            simp only [checkPosition, if_pos (⟨h1, h2, h3, h4, h5⟩ :
              0 ≤ line ∧ line < 2 * (L : Int) + 1 ∧ 0 ≤ col ∧
                col < 2 * (C : Int) + 1 ∧ (line + col) % 2 = 1),
              hfrp0, hs1, hs2]
            simp
          rw [hval, hseg]
          refine ⟨?_, by intro h; exact absurd h (by simp), ?_⟩
          · simp only [true_iff]
            refine ⟨h1, by omega, h3, by omega, h5, ?_⟩
            intro t ht
            simp only [List.mem_singleton] at ht
            subst ht
            exact hbit
          · intro _
            constructor
            · intro t ht
              simp only [List.mem_singleton] at ht
              subst ht
              exact completeBox_boxBits_self g 4 _ _ .Pmin hbi hbj
            · intro x y hxy
              have := hxy (line.toNat / 2, col.toNat / 2 - 1, 4) (by simp)
              exact completeBox_getBox_ne g 4 _ _ .Pmin x y hbi hbj (by tauto)
        · rw [if_neg hbit] at hfrp0
          have hval : checkPosition L C line col g = (false, g) := by
            simp only [checkPosition, if_pos (⟨h1, h2, h3, h4, h5⟩ :
              0 ≤ line ∧ line < 2 * (L : Int) + 1 ∧ 0 ≤ col ∧
                col < 2 * (C : Int) + 1 ∧ (line + col) % 2 = 1),
              hfrp0]
          rw [hval, hseg]
          refine ⟨?_, fun _ => rfl, fun habs => absurd habs (by simp)⟩
          constructor
          · intro h
            exact absurd h (by simp)
          · intro ⟨_, _, _, _, _, hall⟩
            exact absurd (hall (line.toNat / 2, col.toNat / 2 - 1, 4) (by simp)) hbit
      · -- interior or left vertical segment: checked view is bit 1 of (r, c)
        have hcC : col.toNat / 2 < C := by omega
        have hfrp0 : findRelativePosition L C line.toNat col.toNat g =
            (if boxBits g (line.toNat / 2) (col.toNat / 2) &&& 1 = 0
             then RelPos.vertical else RelPos.nonValid) := by
          unfold findRelativePosition
          rw [if_neg (by omega), if_neg (by omega), if_neg h2C]
        obtain ⟨hbi, hbj⟩ := wf_range L C g (line.toNat / 2) (col.toNat / 2) hwf hrL hcC
        by_cases hbit : boxBits g (line.toNat / 2) (col.toNat / 2) &&& 1 = 0
        · rw [if_pos hbit] at hfrp0
          have hs1 : inScope L C ((line.toNat / 2 : Nat) : Int)
              ((col.toNat / 2 : Nat) : Int) = true := by
            rw [inScope_iff]
            omega
          by_cases hc0 : col.toNat / 2 = 0
          · -- left boundary: single view
            have hseg : segTargets L C line.toNat col.toNat =
                [(line.toNat / 2, col.toNat / 2, 1)] := by
              unfold segTargets
              rw [if_neg (by omega), if_pos (by omega), if_neg (by omega)]
              rfl
            have hs2 : inScope L C ((line.toNat / 2 : Nat) : Int)
                (((col.toNat / 2 : Nat) : Int) - 1) = false := by
              apply bool_eq_false_of_not
              rw [inScope_iff]
              omega
            have hval : checkPosition L C line col g =
                (true, completeBox g 1 (line.toNat / 2) (col.toNat / 2) .Pmin) := by
              simp only [checkPosition, if_pos (⟨h1, h2, h3, h4, h5⟩ :
                0 ≤ line ∧ line < 2 * (L : Int) + 1 ∧ 0 ≤ col ∧
                  col < 2 * (C : Int) + 1 ∧ (line + col) % 2 = 1),
                hfrp0, hs1, hs2]
              simp
            rw [hval, hseg]
            refine ⟨?_, by intro h; exact absurd h (by simp), ?_⟩
            · simp only [true_iff]
              refine ⟨h1, by omega, h3, by omega, h5, ?_⟩
              intro t ht
              simp only [List.mem_singleton] at ht
              subst ht
              exact hbit
            · intro _
              constructor
              · intro t ht
                simp only [List.mem_singleton] at ht
                subst ht
                exact completeBox_boxBits_self g 1 _ _ .Pmin hbi hbj
              · intro x y hxy
                have := hxy (line.toNat / 2, col.toNat / 2, 1) (by simp)
                exact completeBox_getBox_ne g 1 _ _ .Pmin x y hbi hbj (by tauto)
          · -- interior vertical segment
            have hseg : segTargets L C line.toNat col.toNat =
                [(line.toNat / 2, col.toNat / 2, 1),
                 (line.toNat / 2, col.toNat / 2 - 1, 4)] := by
              unfold segTargets
              rw [if_neg (by omega), if_pos (by omega), if_pos (by omega)]
              rfl
            have hs2 : inScope L C ((line.toNat / 2 : Nat) : Int)
                (((col.toNat / 2 : Nat) : Int) - 1) = true := by
              rw [inScope_iff]
              omega
            obtain ⟨hbi2, hbj2⟩ := wf_range L C g (line.toNat / 2) (col.toNat / 2 - 1)
              hwf hrL (by omega)
            have hsync := hsH (line.toNat / 2) (col.toNat / 2 - 1) hrL (by omega)
            rw [show col.toNat / 2 - 1 + 1 = col.toNat / 2 from by omega] at hsync
            have hval : checkPosition L C line col g =
                (true, completeBox (completeBox g 1 (line.toNat / 2) (col.toNat / 2) .Pmin)
                  4 (line.toNat / 2) (col.toNat / 2 - 1) .Pmin) := by
              simp only [checkPosition, if_pos (⟨h1, h2, h3, h4, h5⟩ :
                0 ≤ line ∧ line < 2 * (L : Int) + 1 ∧ 0 ≤ col ∧
                  col < 2 * (C : Int) + 1 ∧ (line + col) % 2 = 1),
                hfrp0, hs1, hs2]
              simp
            have hwf1 := wf_completeBox L C g 1 (line.toNat / 2) (col.toNat / 2)
              .Pmin hwf hbi hbj
            obtain ⟨hbi2', hbj2'⟩ := wf_range L C _ (line.toNat / 2) (col.toNat / 2 - 1)
              hwf1 hrL (by omega)
            rw [hval, hseg]
            refine ⟨?_, by intro h; exact absurd h (by simp), ?_⟩
            · simp only [true_iff]
              refine ⟨h1, by omega, h3, by omega, h5, ?_⟩
              intro t ht
              simp only [List.mem_cons, List.mem_singleton, List.not_mem_nil,
                or_false] at ht
              rcases ht with rfl | rfl
              · exact hbit
              · exact hsync.2 hbit
            · intro _
              constructor
              · intro t ht
                simp only [List.mem_cons, List.mem_singleton, List.not_mem_nil,
                  or_false] at ht
                rcases ht with rfl | rfl
                · dsimp only
                  rw [completeBox_boxBits_ne _ 4 _ _ .Pmin _ _ hbi2' hbj2' (by omega)]
                  exact completeBox_boxBits_self g 1 _ _ .Pmin hbi hbj
                · dsimp only
                  rw [completeBox_boxBits_self _ 4 _ _ .Pmin hbi2' hbj2',
                    completeBox_boxBits_ne g 1 _ _ .Pmin _ _ hbi hbj (by omega)]
              · intro x y hxy
                have hx1 := hxy (line.toNat / 2, col.toNat / 2, 1) (by simp)
                have hx2 := hxy (line.toNat / 2, col.toNat / 2 - 1, 4) (by simp)
                rw [completeBox_getBox_ne _ 4 _ _ .Pmin x y hbi2' hbj2' (by tauto),
                  completeBox_getBox_ne g 1 _ _ .Pmin x y hbi hbj (by tauto)]
        · rw [if_neg hbit] at hfrp0
          have hval : checkPosition L C line col g = (false, g) := by
            simp only [checkPosition, if_pos (⟨h1, h2, h3, h4, h5⟩ :
              0 ≤ line ∧ line < 2 * (L : Int) + 1 ∧ 0 ≤ col ∧
                col < 2 * (C : Int) + 1 ∧ (line + col) % 2 = 1),
              hfrp0]
          have hmem : (line.toNat / 2, col.toNat / 2, 1) ∈
              segTargets L C line.toNat col.toNat := by
            unfold segTargets
            rw [if_neg (by omega)]
            rw [List.mem_append]
            left
            rw [if_pos (by omega)]
            simp
          rw [hval]
          refine ⟨?_, fun _ => rfl, fun habs => absurd habs (by simp)⟩
          constructor
          · intro h
            exact absurd h (by simp)
          · intro ⟨_, _, _, _, _, hall⟩
            exact absurd (hall _ hmem) hbit

/-! ### Double completion through a shared segment (claim C5 infrastructure) -/

theorem twoComplete_effect (L C : Nat) (g : Game) (p : Player) (b1 i1 j1 b2 i2 j2 : Nat)
    (hwf : Wf L C g) (hi1 : i1 < L) (hj1 : j1 < C) (hi2 : i2 < L) (hj2 : j2 < C)
    (hne : ¬(i2 = i1 ∧ j2 = j1)) (hble1 : b1 ≤ 15) (hble2 : b2 ≤ 15)
    (h1 : boxBits g i1 j1 = 15 - b1) (h2 : boxBits g i2 j2 = 15 - b2) :
    boxOwner (completeBox (completeBox g b1 i1 j1 p) b2 i2 j2 p) i1 j1 = some p ∧
    boxOwner (completeBox (completeBox g b1 i1 j1 p) b2 i2 j2 p) i2 j2 = some p ∧
    scoreSum (completeBox (completeBox g b1 i1 j1 p) b2 i2 j2 p) = scoreSum g + 2 ∧
    (p = .Pmin → (completeBox (completeBox g b1 i1 j1 p) b2 i2 j2 p).scoreMin =
      g.scoreMin + 2) ∧
    (p = .Pmax → (completeBox (completeBox g b1 i1 j1 p) b2 i2 j2 p).scoreMax =
      g.scoreMax + 2) ∧
    (completeBox (completeBox g b1 i1 j1 p) b2 i2 j2 p).filledBox = true := by
  obtain ⟨hri1, hrj1⟩ := wf_range L C g i1 j1 hwf hi1 hj1
  obtain ⟨hri2, hrj2⟩ := wf_range L C g i2 j2 hwf hi2 hj2
  have hwf1 := wf_completeBox L C g b1 i1 j1 p hwf hri1 hrj1
  obtain ⟨hri2', hrj2'⟩ := wf_range L C _ i2 j2 hwf1 hi2 hj2
  have h15a : boxBits g i1 j1 + b1 = 15 := by omega
  have hca : (boxBits g i1 j1 + b1) &&& 15 = 15 := by rw [h15a]; decide
  have hb21 : boxBits (completeBox g b1 i1 j1 p) i2 j2 = boxBits g i2 j2 := by
    rw [boxBits, completeBox_getBox_ne g b1 i1 j1 p i2 j2 hri1 hrj1 (by tauto)]
    rfl
  have h15b : boxBits (completeBox g b1 i1 j1 p) i2 j2 + b2 = 15 := by
    rw [hb21]; omega
  have hcb : (boxBits (completeBox g b1 i1 j1 p) i2 j2 + b2) &&& 15 = 15 := by
    rw [h15b]; decide
  refine ⟨?_, ?_, ?_, ?_, ?_, ?_⟩
  · rw [boxOwner, completeBox_getBox_ne _ b2 i2 j2 p i1 j1 hri2' hrj2' (by tauto)]
    rw [show (getBox (completeBox g b1 i1 j1 p) i1 j1).2 =
      boxOwner (completeBox g b1 i1 j1 p) i1 j1 from rfl]
    rw [boxOwner, completeBox_getBox_self g b1 i1 j1 p hri1 hrj1]
    simp [hca]
  · rw [boxOwner, completeBox_getBox_self _ b2 i2 j2 p hri2' hrj2']
    simp [hcb]
  · unfold scoreSum
    rw [completeBox_scoreMin _ b2 i2 j2 p hri2' hrj2',
      completeBox_scoreMax _ b2 i2 j2 p hri2' hrj2',
      completeBox_scoreMin g b1 i1 j1 p hri1 hrj1,
      completeBox_scoreMax g b1 i1 j1 p hri1 hrj1]
    cases p <;> simp [hca, hcb] <;> omega
  · intro hp
    subst hp
    rw [completeBox_scoreMin _ b2 i2 j2 _ hri2' hrj2',
      completeBox_scoreMin g b1 i1 j1 _ hri1 hrj1]
    simp [hca, hcb]
  · intro hp
    subst hp
    rw [completeBox_scoreMax _ b2 i2 j2 _ hri2' hrj2',
      completeBox_scoreMax g b1 i1 j1 _ hri1 hrj1]
    simp [hca, hcb]
  · rw [completeBox_filledBox _ b2 i2 j2 p hri2' hrj2']
    simp [hcb]

theorem sum_le_length_mul (l : List Nat) (k : Nat) (h : ∀ x ∈ l, x ≤ k) :
    l.sum ≤ l.length * k := by
  induction l with
  | nil => simp
  | cons x xs ih =>
    simp only [List.sum_cons, List.length_cons, Nat.succ_mul]
    have h1 := h x (List.mem_cons_self x xs)
    have h2 := ih fun y hy => h y (List.mem_cons_of_mem x hy)
    omega

theorem ownedCount_le (L C : Nat) (g : Game) (hwf : Wf L C g) :
    ownedCount g ≤ L * C := by
  unfold ownedCount
  have hbnd : ∀ x ∈ g.board.map rowOwned, x ≤ C := by
    intro x hx
    obtain ⟨row, hrow, hrx⟩ := List.mem_map.1 hx
    obtain ⟨i, hi, hirow⟩ := List.mem_iff_getElem.1 hrow
    have hiL : i < L := hwf.1 ▸ hi
    have hlen : row.length = C := by
      rw [← hwf.2 i hiL, List.getD_eq_getElem?_getD, List.getElem?_eq_getElem hi, hirow]
      rfl
    rw [← hrx]
    calc rowOwned row ≤ row.length := List.countP_le_length _
      _ = C := hlen
  calc (g.board.map rowOwned).sum
      ≤ (g.board.map rowOwned).length * C := sum_le_length_mul _ C hbnd
    _ = L * C := by rw [List.length_map, hwf.1]

/-! ### The claims -/

/-- C1: the claim says a child's player is determined solely by the child's own
move (same player again iff that single placement completed a box).  The code
violates this: `Game.filled_box` is never cleared during search expansion (the
reset happens only in the real turn loop), so from the reachable 1 x 2
position `exG` — where MIN has just completed the left box and the flag is
still set — the child that draws the top edge of the right box completes
nothing (its score sum is unchanged), yet `State.moves` keeps MIN as the
child's player instead of passing the turn to MAX. -/
theorem C1_sticky_filled_box_keeps_player :
    Reachable 1 2 exG ∧
    ∃ c ∈ stateMoves 1 2 ⟨exG, .Pmin, 2⟩,
      scoreSum c.game = scoreSum exG ∧ c.currentPlayer = .Pmin ∧
      c.currentPlayer ≠ otherPlayer .Pmin := by
  constructor
  · have s1 : Reachable 1 2 exG1 :=
      Reachable.step (emptyGame 1 2) dUp 0 0 .Pmax exG1 Reachable.empty
        (by decide) (by decide) (by decide) (by decide)
    have s2 : Reachable 1 2 exG2 :=
      Reachable.step exG1 dLeft 0 0 .Pmax exG2 s1
        (by decide) (by decide) (by decide) (by decide)
    have s3 : Reachable 1 2 exG3 :=
      Reachable.step exG2 dDown 0 0 .Pmax exG3 s2
        (by decide) (by decide) (by decide) (by decide)
    exact Reachable.step exG3 dRight 0 0 .Pmin exG s3
      (by decide) (by decide) (by decide) (by decide)
  · exact ⟨exGchild, by decide, by decide, by decide, by decide⟩

/-- C2: for every state, player and depth (any fuel at least the depth
computes the Python recursion; the statement holds for every fuel), `min_max`
and `alpha_beta` started with any window `alpha < beta` — in particular the
caller's `(-5000, 5000)` — return identical results: the same score and the
same chosen child.  No window-containment assumption is needed: with the
source's bound updates `alpha` only decreases and `beta` only increases, so
the cutoff never fires and alpha-beta scores every child like minimax. -/
theorem C2_alpha_beta_equals_minmax (L C var fuel : Nat) (s : SState)
    (alpha beta : Int) (hab : alpha < beta) :
    alphaBetaF L C var fuel alpha beta s = minMaxF L C var fuel s :=
  alphaBeta_eq_minMax L C var fuel s alpha beta hab

theorem C2_alpha_beta_equals_minmax_witness :
    (-5000 : Int) < 5000 ∧
    alphaBetaF 1 2 2 8 (-5000) 5000 ⟨emptyGame 1 2, .Pmax, 7⟩ =
      minMaxF 1 2 2 8 ⟨emptyGame 1 2, .Pmax, 7⟩ :=
  ⟨by decide,
    C2_alpha_beta_equals_minmax 1 2 2 8 ⟨emptyGame 1 2, .Pmax, 7⟩ (-5000) 5000 (by decide)⟩

/-- C3: the claim says a `MAX` node updates `alpha = max(alpha, best_so_far)`
and stops once `alpha >= beta`.  The code instead runs
`alpha = min(alpha, new_state.score)`, so with window `(0, 1)` and children
scoring `5` then `7`, the first child's score `5` already reaches
`beta = 1` — under the claimed update the loop would stop and keep the first
child — yet the loop of `alpha_beta_state` visits and selects the second
child with score `7`. -/
theorem C3_inverted_bound_updates :
    alphaBetaF 1 1 1 1 0 1 exA = some ⟨some 5, none⟩ ∧
    (1 : Int) ≤ 5 ∧
    abLoop .Pmax (fun a b c => alphaBetaF 1 1 1 1 a b c) [exA, exB] 0 1 none =
      some (some (exB, 7)) :=
  ⟨by decide, by decide, by decide⟩

/-- C4: the move generator yields exactly `E - D` candidate states (total
segments minus already drawn ones, counted over the canonical enumeration),
the enumeration addresses every segment exactly once (the segment identities
of the enumerated `(direction, box)` triples are pairwise distinct), and on
the empty 1 x 1 board it yields exactly 4 candidates. -/
theorem C4_move_generator_counts (L C : Nat) (g : Game) (p : Player) (dep : Nat) :
    (stateMoves L C ⟨g, p, dep⟩).length = totalSegments L C - drawnCount L C g ∧
    ((canonicalPositions L C).map segId).Nodup ∧
    (stateMoves 1 1 ⟨emptyGame 1 1, p, dep⟩).length = 4 := by
  refine ⟨stateMoves_length L C ⟨g, p, dep⟩, nodup_segIds L C, ?_⟩
  rw [stateMoves_length 1 1 ⟨emptyGame 1 1, p, dep⟩]
  show totalSegments 1 1 - drawnCount 1 1 (emptyGame 1 1) = 4
  decide

/-- C6: every reachable state satisfies the owner/edges invariant (a box is
owned iff all four of its edge bits are set), the scores add up to the number
of owned boxes, the sum never exceeds `LINES * COLUMNS`, and a segment
placement never decreases it (in this embedding, an `add_segment` step is the
only operation producing a new live game state, so the sum can only change
through one). -/
theorem C6_reachable_invariant (L C : Nat) (g : Game) (hr : Reachable L C g) :
    (∀ i j, i < L → j < C → ((boxOwner g i j).isSome ↔ boxBits g i j = 15)) ∧
    g.scoreMin + g.scoreMax = ownedCount g ∧
    g.scoreMin + g.scoreMax ≤ L * C ∧
    (∀ d i j p g', addSegment L C g d i j p = some g' →
      g.scoreMin + g.scoreMax ≤ g'.scoreMin + g'.scoreMax) := by
  have hInv := reachable_inv L C g hr
  refine ⟨fun i j _ _ => hInv.owner_iff i j, hInv.score_eq, ?_, ?_⟩
  · rw [show g.scoreMin + g.scoreMax = scoreSum g from rfl, hInv.score_eq]
    exact ownedCount_le L C g hInv.wf
  · intro d i j p g' h
    exact (addSegment_scoreSum L C g d i j p g' h).1

theorem C6_reachable_invariant_witness :
    (∀ i j, i < 2 → j < 2 →
      ((boxOwner (emptyGame 2 2) i j).isSome ↔ boxBits (emptyGame 2 2) i j = 15)) ∧
    (emptyGame 2 2).scoreMin + (emptyGame 2 2).scoreMax = ownedCount (emptyGame 2 2) ∧
    (emptyGame 2 2).scoreMin + (emptyGame 2 2).scoreMax ≤ 2 * 2 ∧
    (∀ d i j p g', addSegment 2 2 (emptyGame 2 2) d i j p = some g' →
      (emptyGame 2 2).scoreMin + (emptyGame 2 2).scoreMax ≤
        g'.scoreMin + g'.scoreMax) :=
  C6_reachable_invariant 2 2 (emptyGame 2 2) Reachable.empty

/-- C9: on an already-terminal state or at depth 0, both searches return the
degenerate result: no children, the score is exactly the static evaluation
(the `Option.map` also transports the evaluator's possible exception), and no
chosen next state. -/
theorem C9_leaf_degenerate (L C var fuel : Nat) (s : SState) (alpha beta : Int)
    (h : s.depth = 0 ∨ gameFinal L C s.game ≠ .notFinal) :
    minMaxF L C var fuel s =
      (estimateScore L C var s.game).map (fun v => ⟨some v, none⟩) ∧
    alphaBetaF L C var fuel alpha beta s =
      (estimateScore L C var s.game).map (fun v => ⟨some v, none⟩) := by
  have hleaf : isLeaf L C s = true := by
    unfold isLeaf
    rcases h with h | h <;> simp [h]
  constructor <;> cases fuel <;> simp [minMaxF, alphaBetaF, leafResult, hleaf]

theorem C9_leaf_degenerate_witness :
    ((⟨emptyGame 1 1, .Pmax, 0⟩ : SState).depth = 0 ∨
      gameFinal 1 1 (⟨emptyGame 1 1, .Pmax, 0⟩ : SState).game ≠ .notFinal) ∧
    (minMaxF 1 1 1 5 ⟨emptyGame 1 1, .Pmax, 0⟩ =
      (estimateScore 1 1 1 (emptyGame 1 1)).map (fun v => ⟨some v, none⟩) ∧
    alphaBetaF 1 1 1 5 (-5000) 5000 ⟨emptyGame 1 1, .Pmax, 0⟩ =
      (estimateScore 1 1 1 (emptyGame 1 1)).map (fun v => ⟨some v, none⟩)) :=
  ⟨by decide, C9_leaf_degenerate 1 1 1 5 ⟨emptyGame 1 1, .Pmax, 0⟩ (-5000) 5000 (by decide)⟩

/-- C10: a reachable state with `score_min + score_max < LINES * COLUMNS` has
at least one generated move, so the `max`/`min` of the searches is never taken
over an empty collection: an unowned box has an undrawn edge, whose canonical
enumeration entry yields a candidate. -/
theorem C10_nonterminal_has_moves (L C : Nat) (g : Game) (hr : Reachable L C g)
    (hnt : g.scoreMin + g.scoreMax < L * C) (p : Player) (dep : Nat) :
    stateMoves L C ⟨g, p, dep⟩ ≠ [] := by
  intro hempty
  have hlen := reachable_moves_nonempty L C g hr hnt p dep
  rw [hempty] at hlen
  exact hlen rfl

theorem C10_nonterminal_has_moves_witness :
    (emptyGame 1 1).scoreMin + (emptyGame 1 1).scoreMax < 1 * 1 ∧
    stateMoves 1 1 ⟨emptyGame 1 1, .Pmin, 3⟩ ≠ [] :=
  ⟨by decide, C10_nonterminal_has_moves 1 1 (emptyGame 1 1) Reachable.empty
    (by decide) .Pmin 3⟩

/-- C5: first, any single `add_segment` placement raises the combined score by
at most 2 (it completes zero, one, or two boxes, never more); second, when the
addressed segment is shared with an in-scope neighbour box and both boxes miss
exactly that segment (`15 - bit` on the addressed side, `15 - mirrored bit` on
the other), the placement succeeds, sets both owners to the mover, raises the
mover's score by exactly 2, and sets the completion flag. -/
theorem C5_shared_segment_double_completion (L C : Nat) (g : Game) (p : Player)
    (d : Dir) (i j : Nat) (hd : d ∈ dirList) (hwf : Wf L C g) (hi : i < L) (hj : j < C)
    (hscope : inScope L C ((i : Int) + d.di) ((j : Int) + d.dj) = true)
    (hval : boxBits g i j = 15 - d.bit)
    (hval2 : boxBits g ((i : Int) + d.di).toNat ((j : Int) + d.dj).toNat = 15 - d.mbit) :
    (∀ (g0 : Game) (d0 : Dir) (i0 j0 : Nat) (q : Player) (g' : Game),
      addSegment L C g0 d0 i0 j0 q = some g' →
      scoreSum g0 ≤ scoreSum g' ∧ scoreSum g' ≤ scoreSum g0 + 2) ∧
    ∃ g', addSegment L C g d i j p = some g' ∧
      boxOwner g' i j = some p ∧
      boxOwner g' ((i : Int) + d.di).toNat ((j : Int) + d.dj).toNat = some p ∧
      scoreSum g' = scoreSum g + 2 ∧
      (p = .Pmin → g'.scoreMin = g.scoreMin + 2) ∧
      (p = .Pmax → g'.scoreMax = g.scoreMax + 2) ∧
      g'.filledBox = true := by
  have hd' : d = dUp ∨ d = dLeft ∨ d = dRight ∨ d = dDown := by
    simpa [dirList] using hd
  refine ⟨fun g0 d0 i0 j0 q g' h => addSegment_scoreSum L C g0 d0 i0 j0 q g' h, ?_⟩
  have hfree : boxBits g i j &&& d.bit = 0 := by
    rcases hd' with rfl | rfl | rfl | rfl <;> (rw [hval]; decide)
  have hstep : addSegment L C g d i j p =
      some (completeBox (completeBox g d.bit i j p) d.mbit
        ((i : Int) + d.di).toNat ((j : Int) + d.dj).toNat p) := by
    simp only [addSegment]
    rw [if_neg (by simp [hfree]), if_pos hscope]
  have hble1 : d.bit ≤ 15 := by
    rcases hd' with rfl | rfl | rfl | rfl <;> decide
  have hble2 : d.mbit ≤ 15 := by
    rcases hd' with rfl | rfl | rfl | rfl <;> decide
  rw [inScope_iff] at hscope
  obtain ⟨ha1, ha2, ha3, ha4⟩ := hscope
  have hi2 : ((i : Int) + d.di).toNat < L := by omega
  have hj2 : ((j : Int) + d.dj).toNat < C := by omega
  have hne : ¬(((i : Int) + d.di).toNat = i ∧ ((j : Int) + d.dj).toNat = j) := by
    rcases hd' with rfl | rfl | rfl | rfl
    · rw [show dUp.di = -1 from rfl] at ha1 ⊢
      omega
    · rw [show dLeft.dj = -1 from rfl] at ha3 ⊢
      omega
    · rw [show dRight.dj = 1 from rfl]
      omega
    · rw [show dDown.di = 1 from rfl]
      omega
  obtain ⟨ho1, ho2, hsum, hmin, hmax, hfill⟩ :=
    twoComplete_effect L C g p d.bit i j d.mbit ((i : Int) + d.di).toNat
      ((j : Int) + d.dj).toNat hwf hi hj hi2 hj2 hne hble1 hble2 hval hval2
  exact ⟨_, hstep, ho1, ho2, hsum, hmin, hmax, hfill⟩

theorem C5_shared_segment_double_completion_witness :
    Wf 1 2 exDouble ∧ boxBits exDouble 0 0 = 15 - dRight.bit ∧
    ∃ g', addSegment 1 2 exDouble dRight 0 0 .Pmin = some g' ∧
      boxOwner g' 0 0 = some .Pmin ∧ boxOwner g' 0 1 = some .Pmin ∧
      scoreSum g' = scoreSum exDouble + 2 ∧ g'.scoreMin = exDouble.scoreMin + 2 ∧
      g'.filledBox = true := by
  refine ⟨by unfold Wf; decide, by decide, ?_⟩
  obtain ⟨-, g', hstep, h1, h2, h3, h4, -, h6⟩ :=
    C5_shared_segment_double_completion 1 2 exDouble .Pmin dRight 0 0
      (by decide) (by unfold Wf; decide) (by decide) (by decide) (by decide) (by decide)
      (by decide)
  exact ⟨g', hstep, h1, h2, h3, h4 rfl, h6⟩

/-- C7: the static evaluator returns exactly `+100000` when the game is over
(`score_min + score_max = LINES * COLUMNS`) with MAX strictly ahead, exactly
`-100000` with MIN strictly ahead, exactly `0` on a tie; on a non-terminal
state it returns `open_boxes(MAX) - open_boxes(MIN)` (whenever the heuristic
evaluates); terminality is exactly the score-sum condition; and on boards up
to the source's 7 x 7 every non-terminal value is strictly dominated by the
sentinels. -/
theorem C7_static_evaluator (L C var : Nat) (g : Game) :
    (g.scoreMin + g.scoreMax = L * C → g.scoreMin < g.scoreMax →
      estimateScore L C var g = some 100000) ∧
    (g.scoreMin + g.scoreMax = L * C → g.scoreMax < g.scoreMin →
      estimateScore L C var g = some (-100000)) ∧
    (g.scoreMin + g.scoreMax = L * C → g.scoreMin = g.scoreMax →
      estimateScore L C var g = some 0) ∧
    (g.scoreMin + g.scoreMax ≠ L * C → ∀ a b,
      openBoxes L C var g .Pmax = some a → openBoxes L C var g .Pmin = some b →
      estimateScore L C var g = some (a - b)) ∧
    (gameFinal L C g = .notFinal ↔ g.scoreMin + g.scoreMax ≠ L * C) ∧
    (∀ v, L ≤ 7 → C ≤ 7 → g.scoreMin + g.scoreMax ≤ L * C →
      g.scoreMin + g.scoreMax ≠ L * C → estimateScore L C var g = some v →
      -100000 < v ∧ v < 100000) := by
  refine ⟨?_, ?_, ?_, ?_, ?_, ?_⟩
  · intro hsum hlt
    have hf : gameFinal L C g = .winMax := by
      unfold gameFinal
      rw [if_neg (by omega), if_neg (by omega), if_neg (by omega)]
    simp only [estimateScore, hf]
  · intro hsum hlt
    have hf : gameFinal L C g = .winMin := by
      unfold gameFinal
      rw [if_neg (by omega), if_neg (by omega), if_pos (by omega)]
    simp only [estimateScore, hf]
  · intro hsum heq
    have hf : gameFinal L C g = .tie := by
      unfold gameFinal
      rw [if_neg (by omega), if_pos heq]
    simp only [estimateScore, hf]
  · intro hne a b ha hb
    have hf : gameFinal L C g = .notFinal := by
      unfold gameFinal
      rw [if_pos hne]
    simp only [estimateScore, hf, ha, hb]
  · constructor
    · intro h hc
      unfold gameFinal at h
      rw [if_neg (by omega)] at h
      split at h
      · exact Outcome.noConfusion h
      · split at h
        · exact Outcome.noConfusion h
        · exact Outcome.noConfusion h
    · intro hne
      unfold gameFinal
      rw [if_pos hne]
  · intro v hL hC hsum hne h
    exact estimate_dominance L C var g v hL hC hsum hne h

/-- C8: the human-move position check, run on any reachable board, accepts —
and then draws the addressed segment on exactly its one or two adjacent boxes,
changing nothing else — iff the typed coordinates are in range
`[0, 2*LINES] x [0, 2*COLUMNS]` with exactly one of them odd (equivalently,
odd sum) and the addressed segment is not already drawn on any adjacent box;
in every other case it reports invalid and returns the board unchanged. -/
theorem C8_check_position (L C : Nat) (g : Game) (line col : Int)
    (hL : 1 ≤ L) (hC : 1 ≤ C) (hr : Reachable L C g) :
    ((checkPosition L C line col g).1 = true ↔
      (0 ≤ line ∧ line ≤ 2 * (L : Int) ∧ 0 ≤ col ∧ col ≤ 2 * (C : Int) ∧
        (line + col) % 2 = 1 ∧
        ∀ t ∈ segTargets L C line.toNat col.toNat,
          boxBits g t.1 t.2.1 &&& t.2.2 = 0)) ∧
    ((checkPosition L C line col g).1 = false → (checkPosition L C line col g).2 = g) ∧
    ((checkPosition L C line col g).1 = true →
      (∀ t ∈ segTargets L C line.toNat col.toNat,
        boxBits (checkPosition L C line col g).2 t.1 t.2.1 = boxBits g t.1 t.2.1 + t.2.2) ∧
      (∀ x y, (∀ t ∈ segTargets L C line.toNat col.toNat, ¬(x = t.1 ∧ y = t.2.1)) →
        getBox (checkPosition L C line col g).2 x y = getBox g x y)) :=
  checkPosition_spec L C g line col hL hC (reachable_inv L C g hr)

theorem C8_check_position_witness :
    (1 : Nat) ≤ 2 ∧ Reachable 2 2 (emptyGame 2 2) ∧
    (checkPosition 2 2 0 1 (emptyGame 2 2)).1 = true :=
  ⟨by decide, Reachable.empty,
    ((C8_check_position 2 2 (emptyGame 2 2) 0 1 (by decide) (by decide)
        Reachable.empty).1).mpr (by decide)⟩

end DB
